import Mathlib

/-!
Verification of the text-processing core of `infineon_intelligence_scraper.py`
(repository `helloannapo/infmarketmonitoring`).

The Python code works on `str`; we embed strings as `List Char` and model the
Python string primitives the code uses (`strip`, `lower`, `split`, `join`,
`replace(pat, "")`, `in`, `startswith`, slicing) as executable Lean functions.
Python's `str.lower` and `str.strip` are modelled by their ASCII behaviour,
which is exact on every string the code manipulates apart from non-ASCII
letters (the only non-ASCII characters involved are the emoji markers, which
both languages leave unchanged).
-/

namespace InfMarket

/-- Embed a Lean string literal as the `List Char` we compute with. -/
def pystr (s : String) : List Char := s.data

/-- Python `str.lower` (ASCII case mapping). -/
def pyLower (s : List Char) : List Char := s.map Char.toLower

/-- Python `str.strip()` with no argument: drop leading and trailing whitespace. -/
def pyStrip (s : List Char) : List Char :=
  ((s.dropWhile Char.isWhitespace).reverse.dropWhile Char.isWhitespace).reverse

/-- Python `a.startswith(b)`. -/
def pyStartsWith (s pre : List Char) : Bool := pre.isPrefixOf s

/-- Python `pat in s` (substring containment; the empty pattern is contained
in every string). -/
def pyIn (pat : List Char) : List Char → Bool
  | [] => pat.isEmpty
  | c :: rest => pat.isPrefixOf (c :: rest) || pyIn pat rest

/-- Python `sep.join(xs)`. -/
def pyJoin (sep : List Char) : List (List Char) → List Char
  | [] => []
  | [x] => x
  | x :: y :: xs => x ++ sep ++ pyJoin sep (y :: xs)

/-- Structural worker for `pySplitOn`: scan left to right; at a separator
occurrence close the current piece and consume the separator by skipping its
remaining characters (`skip` counts characters of a matched separator still to
be consumed, so matching is non-overlapping as in Python). -/
def pySplitOnAux (sep : List Char) : List Char → Nat → List (List Char)
  | [], _ => [[]]
  | _ :: rest, skip + 1 => pySplitOnAux sep rest skip
  | c :: rest, 0 =>
    if sep.isPrefixOf (c :: rest) then
      [] :: pySplitOnAux sep rest (sep.length - 1)
    else
      match pySplitOnAux sep rest 0 with
      | [] => [[c]]
      | t :: ts => (c :: t) :: ts

/-- Python `s.split(sep)` for a non-empty separator `sep`
(for an empty separator, which the code never passes, we return `[s]`). -/
def pySplitOn (sep : List Char) (s : List Char) : List (List Char) :=
  if sep = [] then [s] else pySplitOnAux sep s 0

/-- Python `s.split()` with no argument: split on whitespace runs, no empty
pieces. -/
def pySplitWs (s : List Char) : List (List Char) :=
  match s with
  | [] => []
  | c :: rest =>
    if c.isWhitespace then pySplitWs rest
    else
      match pySplitWs rest with
      | [] => [[c]]
      | t :: ts =>
        match rest with
        | [] => [[c]]
        | d :: _ => if d.isWhitespace then [c] :: t :: ts else (c :: t) :: ts

/-- Structural worker for `pyRemoveAll`: scan left to right; at a pattern
occurrence drop its characters (`skip` counts characters of a matched
occurrence still to be dropped, so matching is non-overlapping as in Python). -/
def pyRemoveAllAux (pat : List Char) : List Char → Nat → List Char
  | [], _ => []
  | _ :: rest, skip + 1 => pyRemoveAllAux pat rest skip
  | c :: rest, 0 =>
    if pat.isPrefixOf (c :: rest) then pyRemoveAllAux pat rest (pat.length - 1)
    else c :: pyRemoveAllAux pat rest 0

/-- Python `s.replace(pat, "")` for a non-empty pattern `pat`: remove all
occurrences, scanning left to right without overlap (for an empty pattern,
which the code never passes, we return `s`). -/
def pyRemoveAll (pat : List Char) (s : List Char) : List Char :=
  if pat = [] then s else pyRemoveAllAux pat s 0

/-- Python `' '.join(s.split())`: collapse whitespace runs to single spaces. -/
def pyNormWs (s : List Char) : List Char := pyJoin (pystr " ") (pySplitWs s)

/-!
## The model-response parser `InfineonIntelligenceAnalyzer._parse_analysis`
(`infineon_intelligence_scraper.py`, lines 679-929).

The result dictionary {Date, Source, Key insights, Signal, Risk} becomes the
structure `AnalysisRecord`; `datetime.now().strftime('%Y-%m-%d')` is passed in
as the explicit `today` argument.
-/

/-- The parsed record (the dictionary built by `_parse_analysis`). -/
structure AnalysisRecord where
  date : List Char
  source : List Char
  keyInsights : List Char
  signal : List Char
  risk : List Char
  deriving Repr, DecidableEq

/-- The capture section opened by a header line (`current_section`). -/
inductive Sect where
  | insights
  | signal
  | risk
  deriving Repr, DecidableEq

/-- State of the line loop of `_parse_analysis` (lines 691-731): the fields of
the result dictionary so far, the open section and its rolling content buffer. -/
structure LoopState where
  date : List Char
  ki : List Char
  sig : List Char
  risk : List Char
  cur : Option Sect
  content : List (List Char)
  deriving Repr, DecidableEq

/-- Lines 716-725: on every append to the "Key insights" section the joined
content is re-split on newlines and lines starting with "date:" or
"key insights:" (case-insensitively) are dropped, then re-joined and stripped. -/
def kiAppendFilter (insightsText : List Char) : List Char :=
  let ls := pySplitOn (pystr "\n") insightsText
  let fl := ls.filterMap (fun l =>
    let l := pyStrip l
    if l ≠ [] ∧ ¬ pyStartsWith (pyLower l) (pystr "date:")
        ∧ ¬ pyStartsWith (pyLower l) (pystr "key insights:") then some l else none)
  pyStrip (pyJoin (pystr " ") fl)

/-- One iteration of the line loop (lines 694-731). A header line only opens a
section and resets the buffer; text after the colon on the header line itself
is not captured. -/
def processLine (st : LoopState) (rawLine : List Char) : LoopState :=
  let line := pyStrip rawLine
  if line = [] then st
  else if pyStartsWith (pyLower line) (pystr "date:") then
    { st with date := pyStrip (pyRemoveAll (pystr "date:") (pyRemoveAll (pystr "Date:") line)) }
  else if pyStartsWith (pyLower line) (pystr "key insights:") then
    { st with cur := some .insights, content := [] }
  else if pyStartsWith (pyLower line) (pystr "signal:") then
    { st with cur := some .signal, content := [] }
  else if pyStartsWith (pyLower line) (pystr "risk:") then
    { st with cur := some .risk, content := [] }
  else
    match st.cur with
    | none => st
    | some .insights =>
      let content := st.content ++ [line]
      { st with content := content, ki := kiAppendFilter (pyJoin (pystr " ") content) }
    | some .signal =>
      let content := st.content ++ [line]
      { st with content := content, sig := pyJoin (pystr " ") content }
    | some .risk =>
      let content := st.content ++ [line]
      { st with content := content, risk := pyJoin (pystr " ") content }

/-- Lines 738-744: split on newlines, drop lines starting with "date:" or
"key insights:", re-join with single spaces (no trailing strip at this point). -/
def dropHeaderLines (s : List Char) : List Char :=
  let ls := pySplitOn (pystr "\n") s
  let fl := ls.filterMap (fun l =>
    let l := pyStrip l
    if l ≠ [] ∧ ¬ pyStartsWith (pyLower l) (pystr "date:")
        ∧ ¬ pyStartsWith (pyLower l) (pystr "key insights:") then some l else none)
  pyJoin (pystr " ") fl

/-- Lines 750-763 (and again 875-888): collapse the narrative to at most 200
whitespace-separated words; if that truncates, re-join the complete sentences
before the cut with ". " and a final period, or append "..." when the
truncated text holds no period. -/
def wordLimit200 (s : List Char) : List Char :=
  let words := pySplitWs s
  if words.length > 200 then
    let truncated := pyJoin (pystr " ") (words.take 200)
    let sentences := pySplitOn (pystr ".") truncated
    if sentences.length > 1 then
      pyJoin (pystr ". ") sentences.dropLast ++ pystr "."
    else truncated ++ pystr "..."
  else pyJoin (pystr " ") words

/-- Lines 734-763: first cleanup of the captured "Key insights" text. -/
def kiCleanupA (ki : List Char) : List Char :=
  if ki = [] then ki
  else
    let cleaned := dropHeaderLines ki
    let cleaned := pyStrip (pyRemoveAll (pystr "key insights:") (pyRemoveAll (pystr "Key insights:")
      (pyRemoveAll (pystr "date:") (pyRemoveAll (pystr "Date:") cleaned))))
    wordLimit200 (pyStrip cleaned)

/-- Lines 766-773 (also lines 789-794 against the full text): reduce a signal
text to Positive / Negative / Neutral by substring search. -/
def normalizeSignalText (s : List Char) : List Char :=
  let l := pyLower s
  if pyIn (pystr "positive") l then pystr "Positive"
  else if pyIn (pystr "negative") l then pystr "Negative"
  else pystr "Neutral"

/-- Lines 776-783: reduce a risk text to High / Medium / Low by substring
search. -/
def normalizeRiskText (s : List Char) : List Char :=
  let l := pyLower s
  if pyIn (pystr "high") l then pystr "High"
  else if pyIn (pystr "medium") l then pystr "Medium"
  else pystr "Low"

/-- Lines 796-801: risk keyword search over the full response text. -/
def fullTextRiskKw (t : List Char) : List Char :=
  let l := pyLower t
  if pyIn (pystr "high") l && pyIn (pystr "risk") l then pystr "High"
  else if pyIn (pystr "medium") l && pyIn (pystr "risk") l then pystr "Medium"
  else pystr "Low"

/-- Lines 814-830 (textually repeated at 894-905): marker-aware signal
extraction from the full response text. -/
def markerSignal (t : List Char) : List Char :=
  let l := pyLower t
  if pyIn (pystr "🟢 positive") l || pyIn (pystr "signal: 🟢 positive") l then pystr "Positive"
  else if pyIn (pystr "🔴 negative") l || pyIn (pystr "signal: 🔴 negative") l then pystr "Negative"
  else if pyIn (pystr "positive") l && pyIn (pystr "signal:") l then pystr "Positive"
  else if pyIn (pystr "negative") l && pyIn (pystr "signal:") l then pystr "Negative"
  else pystr "Neutral"

/-- Lines 832-845 (textually repeated at 907-916): marker-aware risk
extraction from the full response text. -/
def markerRisk (t : List Char) : List Char :=
  let l := pyLower t
  if pyIn (pystr "risk: high") l || (pyIn (pystr "high") l && pyIn (pystr "risk") l) then pystr "High"
  else if pyIn (pystr "risk: medium") l || (pyIn (pystr "medium") l && pyIn (pystr "risk") l) then pystr "Medium"
  else if pyIn (pystr "risk: low") l || (pyIn (pystr "low") l && pyIn (pystr "risk") l) then pystr "Low"
  else pystr "Low"

/-- The narrative / signal / risk triple threaded through the middle of
`_parse_analysis`. -/
structure FieldsKSR where
  ki : List Char
  sig : List Char
  risk : List Char
  deriving Repr, DecidableEq

/-- Lines 786-806: keyword extraction from the full text, guarded by all three
fields being empty. In the source this block is indented inside the
`if result['Risk']:` branch of lines 775-845, so it is modelled inside
`riskBlock`. -/
def fullTextKwBlock (t : List Char) (f : FieldsKSR) : FieldsKSR :=
  let sig := normalizeSignalText t
  let risk := fullTextRiskKw t
  let sentences := pySplitOn (pystr ".") t
  match sentences with
  | [] => { ki := f.ki, sig := sig, risk := risk }
  | s0 :: _ =>
    { ki := if s0.length > 200 then s0.take 200 ++ pystr "..." else s0,
      sig := sig, risk := risk }

/-- Lines 786-806 with their guard: the keyword extraction fires only when
all three fields are empty. -/
def allEmptyKwPass (t : List Char) (f : FieldsKSR) : FieldsKSR :=
  if f.ki = [] ∧ f.sig = [] ∧ f.risk = [] then fullTextKwBlock t f else f

/-- Lines 808-845, textually repeated at lines 890-916: fill a still-empty
signal and a still-empty risk from the marker patterns of the full response
text. -/
def markerPass (t : List Char) (f : FieldsKSR) : FieldsKSR :=
  if f.sig = [] ∨ f.risk = [] then
    let f := if f.sig = [] then { f with sig := markerSignal t } else f
    if f.risk = [] then { f with risk := markerRisk t } else f
  else f

/-- Lines 775-845: normalize a non-empty risk text, then — still inside the
same indentation branch of the source — run the all-empty keyword block
(lines 786-806) and the marker-pattern block (lines 808-845), each guarded by
the relevant fields still being empty. -/
def riskBlock (t : List Char) (f : FieldsKSR) : FieldsKSR :=
  if f.risk = [] then f
  else markerPass t (allEmptyKwPass t { f with risk := normalizeRiskText f.risk })

/-- Lines 848-888: final cleanup of the narrative — drop "date:"-prefixed
lines, split off everything up to a literal "key insights:" occurrence, strip
remaining header fragments, and apply the 200-word limit again. -/
def kiCleanupD (ki : List Char) : List Char :=
  if ki = [] then ki
  else
    let ls := pySplitOn (pystr "\n") ki
    let fl := ls.filterMap (fun l =>
      let l := pyStrip l
      if l ≠ [] ∧ ¬ pyStartsWith (pyLower l) (pystr "date:") then some l else none)
    let insightsText := pyJoin (pystr " ") fl
    let ki :=
      if pyIn (pystr "key insights:") (pyLower insightsText) then
        let parts := pySplitOn (pystr "key insights:") insightsText
        if parts.length > 1 then pyStrip (parts.getD 1 []) else pyStrip insightsText
      else pyStrip insightsText
    let ki := pyStrip (pyRemoveAll (pystr "key insights:") (pyRemoveAll (pystr "Key insights:") ki))
    wordLimit200 ki

/-- `_parse_analysis(analysis_text, source)`, lines 679-919 (the body of its
`try`, which is total on string input): line loop, narrative cleanup, signal
and risk normalization with their fallback passes, and the final marker pass
of lines 890-916 (the same block as lines 808-845, hence the same
`markerPass`). -/
def parseAnalysisCore (analysisText today source : List Char) : AnalysisRecord :=
  let lines := pySplitOn (pystr "\n") analysisText
  let st0 : LoopState :=
    { date := today, ki := [], sig := [], risk := [], cur := none, content := [] }
  let st := lines.foldl processLine st0
  let ki := kiCleanupA st.ki
  let sig := if st.sig = [] then st.sig else normalizeSignalText st.sig
  let f := riskBlock analysisText { ki := ki, sig := sig, risk := st.risk }
  let ki := kiCleanupD f.ki
  let f := markerPass analysisText f
  { date := st.date, source := source, keyInsights := ki, signal := f.sig, risk := f.risk }

/-- Lines 921-929: the record returned by the `except` branch of
`_parse_analysis` on any internal error. -/
def parseAnalysisFallback (today source : List Char) : AnalysisRecord :=
  { date := today, source := source, keyInsights := pystr "Analysis parsing error",
    signal := pystr "Neutral", risk := pystr "Low" }

/-!
## The per-source scraper `scrape_canary` (lines 120-229) and its URL loop.

The transport and HTML heuristics (`self.session.get`, BeautifulSoup
selectors, headline / insight / signal extraction, lines 143-210) are external
to the claims about this function; one whole per-URL `try` body is abstracted
as an oracle `attempt : url -> Except error Extracted` where `Except.error`
is an exception raised by the fetch or parse (caught at lines 215-217) and
`Except.ok` carries the three extracted candidate lists for that URL.
-/

/-- What one successful per-URL iteration appends to the three data lists. -/
structure Extracted where
  headlines : List (List Char)
  keyInsights : List (List Char)
  marketSignals : List (List Char)
  deriving Repr, DecidableEq

/-- The dictionary built by `scrape_canary` (`data`, lines 132-139), with the
`error` key of the outer `except` branch (line 229) as an `Option`. -/
structure ScrapeData where
  source : List Char
  url : List Char
  headlines : List (List Char)
  keyInsights : List (List Char)
  marketSignals : List (List Char)
  error : Option (List Char)
  deriving Repr, DecidableEq

/-- Lines 141-217: try each candidate URL in order; an exception skips to the
next URL; on success the extracted lists are appended and the loop breaks as
soon as any of the three lists is non-empty. -/
def tryUrls (attempt : List Char → Except (List Char) Extracted) :
    List (List Char) → ScrapeData → ScrapeData
  | [], d => d
  | u :: rest, d =>
    match attempt u with
    | .error _ => tryUrls attempt rest d
    | .ok ext =>
      let d := { d with
        url := u,
        headlines := d.headlines ++ ext.headlines,
        keyInsights := d.keyInsights ++ ext.keyInsights,
        marketSignals := d.marketSignals ++ ext.marketSignals }
      if !d.headlines.isEmpty || !d.keyInsights.isEmpty || !d.marketSignals.isEmpty then d
      else tryUrls attempt rest d

/-- The candidate URL list of `scrape_canary` (lines 125-130). -/
def canaryNewsUrls : List (List Char) :=
  [pystr "https://www.canarymedia.com/",
   pystr "https://www.canarymedia.com/articles",
   pystr "https://www.canarymedia.com/news",
   pystr "https://www.canarymedia.com/energy"]

/-- `scrape_canary` (lines 120-229): run the URL loop from the empty data
dictionary, then cap each list at 5 entries. The outer `except` branch (line
229) is unreachable when every per-URL exception is already caught inside the
loop, so the happy path never sets `error`. -/
def scrape_canary (attempt : List Char → Except (List Char) Extracted) : ScrapeData :=
  let d0 : ScrapeData :=
    { source := pystr "Canary Media", url := [], headlines := [],
      keyInsights := [], marketSignals := [], error := none }
  let d := tryUrls attempt canaryNewsUrls d0
  { d with headlines := d.headlines.take 5, keyInsights := d.keyInsights.take 5,
           marketSignals := d.marketSignals.take 5 }

/-- `scrape_all_sources` (lines 453-471) over the enabled sources of
`intelligence_sources_config.py`: one `ScrapeData` per source key, in
configuration order (`scrape_industryweek` and `scrape_eia` have the same
control flow as `scrape_canary`, so all three loops are the same function over
their own oracle; the string `scraping_timestamp` entry added at line 469 is
the separate key skipped by the aggregator guard). -/
def scrapeAllSources (attemptC attemptI attemptE : List Char → Except (List Char) Extracted)
    (industryUrls eiaUrls : List (List Char)) : List (List Char × ScrapeData) :=
  [(pystr "canary", scrape_canary attemptC),
   (pystr "industryweek",
     let d0 : ScrapeData :=
       { source := pystr "Industry Week", url := [], headlines := [],
         keyInsights := [], marketSignals := [], error := none }
     let d := tryUrls attemptI industryUrls d0
     { d with headlines := d.headlines.take 5, keyInsights := d.keyInsights.take 5,
              marketSignals := d.marketSignals.take 5 }),
   (pystr "eia",
     let d0 : ScrapeData :=
       { source := pystr "EIA Today in Energy", url := [], headlines := [],
         keyInsights := [], marketSignals := [], error := none }
     let d := tryUrls attemptE eiaUrls d0
     { d with headlines := d.headlines.take 5, keyInsights := d.keyInsights.take 5,
              marketSignals := d.marketSignals.take 5 })]

/-!
## The daily aggregator inside `analyze_for_infineon` (lines 484-580).
-/

/-- The web-chrome artifact phrases removed by literal substring replacement
(lines 510-517). -/
def artifacts : List (List Char) :=
  [pystr "Toggle filter", pystr "Chevron down", pystr "Read documentation", pystr "cross",
   pystr "Back to homepage", pystr "Contact Us", pystr "Useful links", pystr "Latest insights",
   pystr "Latest updates", pystr "Open data", pystr "About us", pystr "Careers",
   pystr "Toggle navigation", pystr "My User", pystr "Create account", pystr "Log in",
   pystr "View form", pystr "View source", pystr "History", pystr "Refresh",
   pystr "What links here", pystr "Browse Properties", pystr "From Open Energy Information"]

/-- The broad relevance vocabulary (lines 528-536). -/
def relevantKeywords : List (List Char) :=
  [pystr "ai", pystr "artificial intelligence", pystr "industrial", pystr "manufacturing",
   pystr "automation", pystr "predictive maintenance", pystr "edge computing", pystr "iot",
   pystr "smart", pystr "efficiency", pystr "reliability", pystr "sustainability",
   pystr "semiconductor", pystr "chip", pystr "power", pystr "motor", pystr "drive",
   pystr "equipment", pystr "optimization", pystr "machine learning", pystr "energy",
   pystr "electricity", pystr "renewable", pystr "solar", pystr "wind", pystr "battery",
   pystr "emission", pystr "carbon", pystr "clean", pystr "transition", pystr "investment",
   pystr "market", pystr "technology", pystr "research", pystr "production", pystr "factory",
   pystr "industry"]

/-- The reduced keyword subset re-checked after truncation (lines 542-546). -/
def reducedKeywords : List (List Char) :=
  [pystr "ai", pystr "artificial intelligence", pystr "industrial", pystr "manufacturing",
   pystr "automation", pystr "predictive maintenance", pystr "edge computing", pystr "iot",
   pystr "smart", pystr "efficiency", pystr "reliability", pystr "sustainability",
   pystr "semiconductor", pystr "chip", pystr "power"]

/-- Lines 519-520: remove every artifact phrase by literal replacement, in
list order. -/
def removeArtifacts (s : List Char) : List Char :=
  artifacts.foldl (fun acc a => pyRemoveAll a acc) s

/-- `any(keyword in text.lower() for keyword in kws)`. -/
def containsAnyKw (kws : List (List Char)) (s : List Char) : Bool :=
  kws.any (fun k => pyIn k (pyLower s))

/-- Lines 506-523: whitespace collapse, artifact removal, whitespace collapse
again. -/
def cleanedOf (text : List Char) : List Char :=
  pyNormWs (removeArtifacts (pyNormWs text))

/-- The per-string body of `clean_and_truncate_text` (lines 505-548,
`max_chars` left at its default 150 as at every call site): keep the cleaned
string when its length is in (30, 150) and it holds a broad relevance term;
when its length is at least 150, truncate to 150 characters plus "..." and
keep that when it holds a reduced-subset term; drop it otherwise. -/
def processText (text : List Char) : Option (List Char) :=
  let cleanedText := cleanedOf text
  if 30 < cleanedText.length ∧ cleanedText.length < 150 then
    if containsAnyKw relevantKeywords cleanedText then some cleanedText else none
  else if 150 ≤ cleanedText.length then
    let truncated := cleanedText.take 150 ++ pystr "..."
    if containsAnyKw reducedKeywords truncated then some truncated else none
  else none

/-- `clean_and_truncate_text(text_list)` (lines 503-550). -/
def clean_and_truncate_text (l : List (List Char)) : List (List Char) :=
  l.filterMap processText

/-- The per-date aggregation buffer `daily_data[current_date]`
(lines 557-568). -/
structure DailyAgg where
  sources : List (List Char)
  headlines : List (List Char)
  insights : List (List Char)
  signals : List (List Char)
  deriving Repr, DecidableEq

/-- One iteration of the aggregation loop (lines 493-568): skip the
`scraping_timestamp` entry and any result carrying an `error` key; otherwise
take at most 2 headlines / insights / signals, clean and filter them, and
append them (and the source display name) to the buffer. -/
def aggStep (agg : DailyAgg) (e : List Char × ScrapeData) : DailyAgg :=
  if e.1 = pystr "scraping_timestamp" ∨ e.2.error.isSome then agg
  else
    { sources := agg.sources ++ [e.2.source],
      headlines := agg.headlines ++ clean_and_truncate_text (e.2.headlines.take 2),
      insights := agg.insights ++ clean_and_truncate_text (e.2.keyInsights.take 2),
      signals := agg.signals ++ clean_and_truncate_text (e.2.marketSignals.take 2) }

/-- The daily aggregation over all scraped entries (lines 489-570); the run
date is fixed, so there is a single buffer. -/
def buildDailyAgg (data : List (List Char × ScrapeData)) : DailyAgg :=
  data.foldl aggStep { sources := [], headlines := [], insights := [], signals := [] }

/-- Lines 575-580: the batch actually handed to the model call — each field
capped at 5 entries. -/
def handedBatch (data : List (List Char × ScrapeData)) : DailyAgg :=
  let agg := buildDailyAgg data
  { agg with headlines := agg.headlines.take 5, insights := agg.insights.take 5,
             signals := agg.signals.take 5 }

/-- The outcome of the external model call (lines 639-648 on success; the
three `except` branches of lines 656-664). -/
inductive ModelOutcome where
  | ok (text : List Char)
  | invalidRequest (e : List Char)
  | authError (e : List Char)
  | otherError (e : List Char)
  deriving Repr, DecidableEq

/-- Lines 630-664: decide whether to call the model and what text reaches the
parser. The first component records whether the API call was issued; the
second is `analysis_text`. With fewer than 2 data points the call is skipped
and a fixed message is used; otherwise the oracle outcome is used, with an
empty response replaced by a shorter fixed message and each exception kind
formatted as in the source. -/
def analysisTextFor (b : DailyAgg) (outcome : ModelOutcome) : Bool × List Char :=
  if b.headlines.length + b.insights.length + b.signals.length < 2 then
    (false, pystr "Unable to generate analysis due to insufficient data. Need at least 2 data points from sources.")
  else
    (true,
      match outcome with
      | .ok t => if t.isEmpty then pystr "Unable to generate analysis due to insufficient data." else t
      | .invalidRequest e => pystr "Model configuration error: " ++ e ++ pystr ". Please check OPENAI_MODEL setting."
      | .authError e => pystr "Authentication error: " ++ e ++ pystr ". Please check OPENAI_API_KEY."
      | .otherError e => pystr "Error in AI analysis: " ++ e)

/-- The three legal signal values (prompt rubric, lines 602-605; enforced at
lines 765-773, 814-830, 890-905). -/
def signalEnum : List (List Char) := [pystr "Positive", pystr "Neutral", pystr "Negative"]

/-- The three legal risk values (prompt rubric, lines 607-610; enforced at
lines 775-783, 832-845, 907-916). -/
def riskEnum : List (List Char) := [pystr "Low", pystr "Medium", pystr "High"]

/-- The scenario text of the specification: a well-formed four-line model
response with the narrative on the same line as its header. -/
def c2Text : List Char :=
  pystr "Date: 2025-01-10\nKey insights: Strong growth\nSignal: 🟢 Positive reasoning\nRisk: risk: high reasoning"

/-- The scenario text with no recognizable section headers. -/
def c3Text : List Char :=
  pystr "Things look mixed. negative sentiment expected. risk is medium overall."

/-- A well-formed multi-line model response whose narrative is non-empty. -/
def c9Text : List Char :=
  pystr "Key insights:\nGood ai growth expected\nSignal:\npositive\nRisk:\nlow"

/-- Python `len(s.split())`: the number of whitespace-separated words. -/
def wordCount (s : List Char) : Nat := (pySplitWs s).length

/-- Proof infrastructure: 1 when a further non-whitespace character prepended
to `s` would start a new word (i.e. `s` is empty or starts with whitespace),
else 0. -/
def wsBump (s : List Char) : Nat :=
  match s with
  | [] => 1
  | d :: _ => if d.isWhitespace then 1 else 0

/-- Proof infrastructure: word count plus the leading-boundary bump; this
quantity is monotone under taking sublists, which carries the word-count
bounds through character deletions. -/
def wordCountB (s : List Char) : Nat := wordCount s + wsBump s

/-- Proof infrastructure: every period is immediately followed by a space or
ends the text. Texts rebuilt by the sentence re-join of `wordLimit200` have
this shape, and on such texts a second `wordLimit200` cannot exceed 200
words. -/
def PSb : List Char → Bool
  | c :: d :: rest => (if c = '.' then d == ' ' else true) && PSb (d :: rest)
  | _ => true

/-- Proof infrastructure: insert a space after every period; splitting on "."
and re-joining with ". " is exactly this transformation. -/
def respace : List Char → List Char
  | [] => []
  | c :: rest => if c = '.' then c :: ' ' :: respace rest else c :: respace rest

/-- A concrete 201-word text, exceeding the 200-word narrative limit. -/
def c8LongText : List Char := pyJoin (pystr " ") (List.replicate 201 ['a'])

/-!
## Lemmas: the signal and risk normalizers always land in their enumerations
-/

lemma normalizeSignalText_mem (s : List Char) : normalizeSignalText s ∈ signalEnum := by
  simp only [normalizeSignalText, signalEnum]
  split_ifs <;> simp

lemma markerSignal_mem (t : List Char) : markerSignal t ∈ signalEnum := by
  simp only [markerSignal, signalEnum]
  split_ifs <;> simp

lemma normalizeRiskText_mem (s : List Char) : normalizeRiskText s ∈ riskEnum := by
  simp only [normalizeRiskText, riskEnum]
  split_ifs <;> simp

lemma markerRisk_mem (t : List Char) : markerRisk t ∈ riskEnum := by
  simp only [markerRisk, riskEnum]
  split_ifs <;> simp

lemma fullTextRiskKw_mem (t : List Char) : fullTextRiskKw t ∈ riskEnum := by
  simp only [fullTextRiskKw, riskEnum]
  split_ifs <;> simp

lemma signalEnum_ne_nil : ∀ x ∈ signalEnum, x ≠ [] := by decide

lemma riskEnum_ne_nil : ∀ x ∈ riskEnum, x ≠ [] := by decide

lemma markerPass_ki (t : List Char) (f : FieldsKSR) : (markerPass t f).ki = f.ki := by
  simp only [markerPass]
  split_ifs <;> simp

lemma markerPass_sig (t : List Char) (f : FieldsKSR) :
    (markerPass t f).sig = if f.sig = [] then markerSignal t else f.sig := by
  simp only [markerPass]
  split_ifs with h h1 h2 h3 h4 <;> simp_all

lemma markerPass_risk (t : List Char) (f : FieldsKSR) :
    (markerPass t f).risk = if f.risk = [] then markerRisk t else f.risk := by
  simp only [markerPass]
  split_ifs with h h1 h2 h3 h4 <;> simp_all

lemma allEmptyKwPass_skip (t : List Char) (f : FieldsKSR) (h : f.risk ≠ []) :
    allEmptyKwPass t f = f := by
  unfold allEmptyKwPass
  exact if_neg (fun hc => h hc.2.2)

lemma normalizeRiskText_ne_nil (s : List Char) : normalizeRiskText s ≠ [] :=
  riskEnum_ne_nil _ (normalizeRiskText_mem s)

lemma riskBlock_ki (t : List Char) (f : FieldsKSR) : (riskBlock t f).ki = f.ki := by
  unfold riskBlock
  by_cases h : f.risk = []
  · rw [if_pos h]
  · rw [if_neg h, allEmptyKwPass_skip t _ (normalizeRiskText_ne_nil f.risk), markerPass_ki]

lemma riskBlock_sig (t : List Char) (f : FieldsKSR) :
    (riskBlock t f).sig = f.sig ∨ (riskBlock t f).sig ∈ signalEnum := by
  unfold riskBlock
  by_cases h : f.risk = []
  · rw [if_pos h]
    exact Or.inl rfl
  · rw [if_neg h, allEmptyKwPass_skip t _ (normalizeRiskText_ne_nil f.risk), markerPass_sig]
    by_cases hs : f.sig = []
    · rw [if_pos hs]
      exact Or.inr (markerSignal_mem t)
    · rw [if_neg hs]
      exact Or.inl rfl

lemma riskBlock_risk (t : List Char) (f : FieldsKSR) :
    (f.risk = [] ∧ (riskBlock t f).risk = []) ∨ (riskBlock t f).risk ∈ riskEnum := by
  unfold riskBlock
  by_cases h : f.risk = []
  · rw [if_pos h]
    exact Or.inl ⟨h, h⟩
  · rw [if_neg h, allEmptyKwPass_skip t _ (normalizeRiskText_ne_nil f.risk), markerPass_risk]
    rw [if_neg (normalizeRiskText_ne_nil f.risk)]
    exact Or.inr (normalizeRiskText_mem f.risk)

lemma finalPass_sig_mem (t : List Char) (f : FieldsKSR)
    (h : f.sig = [] ∨ f.sig ∈ signalEnum) : (markerPass t f).sig ∈ signalEnum := by
  rw [markerPass_sig]
  split_ifs with he
  · exact markerSignal_mem t
  · rcases h with h | h
    · exact absurd h he
    · exact h

lemma finalPass_risk_mem (t : List Char) (f : FieldsKSR)
    (h : f.risk = [] ∨ f.risk ∈ riskEnum) : (markerPass t f).risk ∈ riskEnum := by
  rw [markerPass_risk]
  split_ifs with he
  · exact markerRisk_mem t
  · rcases h with h | h
    · exact absurd h he
    · exact h

/-- The signal field is always one of the three values after the full
normalization chain, whatever the line loop captured. -/
lemma pipeline_sig_mem (t ki sig0 risk0 : List Char) :
    (markerPass t (riskBlock t
      { ki := ki, sig := if sig0 = [] then sig0 else normalizeSignalText sig0,
        risk := risk0 } )).sig ∈ signalEnum := by
  apply finalPass_sig_mem
  rcases riskBlock_sig t { ki := ki, sig := if sig0 = [] then sig0 else normalizeSignalText sig0, risk := risk0 } with h | h
  · rw [h]
    by_cases h0 : sig0 = []
    · simp [h0]
    · simp only [if_neg h0]
      exact Or.inr (normalizeSignalText_mem sig0)
  · exact Or.inr h

/-- The risk field is always one of the three values after the full
normalization chain, whatever the line loop captured. -/
lemma pipeline_risk_mem (t ki sig1 risk0 : List Char) :
    (markerPass t (riskBlock t { ki := ki, sig := sig1, risk := risk0 } )).risk ∈ riskEnum := by
  apply finalPass_risk_mem
  rcases riskBlock_risk t { ki := ki, sig := sig1, risk := risk0 } with h | h
  · exact Or.inl h.2
  · exact Or.inr h

/-- C1: for every non-empty input text the parser returns a record whose
Signal is exactly one of Positive / Neutral / Negative and whose Risk is
exactly one of Low / Medium / High, and the record returned on any internal
error is the fixed one with narrative "Analysis parsing error", signal
Neutral, risk Low. -/
theorem c1_parse_enums_and_fallback (t today src : List Char) (h : t ≠ []) :
    (parseAnalysisCore t today src).signal ∈ signalEnum ∧
    (parseAnalysisCore t today src).risk ∈ riskEnum ∧
    (parseAnalysisFallback today src).keyInsights = pystr "Analysis parsing error" ∧
    (parseAnalysisFallback today src).signal = pystr "Neutral" ∧
    (parseAnalysisFallback today src).risk = pystr "Low" := by
  refine ⟨?_, ?_, rfl, rfl, rfl⟩
  · simp only [parseAnalysisCore]
    exact pipeline_sig_mem t _ _ _
  · simp only [parseAnalysisCore]
    exact pipeline_risk_mem t _ _ _

/-- C1 witness: the enum guarantee evaluated at the concrete input "hello". -/
theorem c1_parse_enums_witness :
    pystr "hello" ≠ [] ∧
    ((parseAnalysisCore (pystr "hello") (pystr "2025-01-01") (pystr "s")).signal ∈ signalEnum ∧
     (parseAnalysisCore (pystr "hello") (pystr "2025-01-01") (pystr "s")).risk ∈ riskEnum ∧
     (parseAnalysisFallback (pystr "2025-01-01") (pystr "s")).keyInsights = pystr "Analysis parsing error" ∧
     (parseAnalysisFallback (pystr "2025-01-01") (pystr "s")).signal = pystr "Neutral" ∧
     (parseAnalysisFallback (pystr "2025-01-01") (pystr "s")).risk = pystr "Low") :=
  ⟨by decide, c1_parse_enums_and_fallback (pystr "hello") (pystr "2025-01-01") (pystr "s") (by decide)⟩

/-- C2 counterexample: on the specification's four-line scenario text the
parser does NOT return the narrative "Strong growth" — the text after the
"Key insights:" header on the same line is discarded by the line-based
capture. -/
theorem c2_counterexample :
    (parseAnalysisCore c2Text (pystr "2099-01-01") (pystr "Daily Analysis")).keyInsights ≠
      pystr "Strong growth" := by
  decide

/-- C2 amended: the scenario text parses to date "2025-01-10", signal
"Positive" and risk "High" as claimed, but the narrative is empty, because
content on a section-header line is not captured. -/
theorem c2_amended_record :
    parseAnalysisCore c2Text (pystr "2099-01-01") (pystr "Daily Analysis") =
      { date := pystr "2025-01-10", source := pystr "Daily Analysis", keyInsights := [],
        signal := pystr "Positive", risk := pystr "High" } := by
  decide

/-- C3: on the header-free scenario text the code yields signal "Neutral"
(not "Negative" as the claim states) and risk "Medium"; the keyword-in-full-
text pass of lines 786-806 is unreachable because its guard needs an empty
risk inside the `if result['Risk']:` branch. -/
theorem c3_divergence_eval :
    (parseAnalysisCore c3Text (pystr "2099-01-01") (pystr "src")).signal = pystr "Neutral" ∧
    (parseAnalysisCore c3Text (pystr "2099-01-01") (pystr "src")).risk = pystr "Medium" := by
  decide

/-!
## Claims about the scraper loop and the daily aggregator
-/

lemma tryUrls_all_fail (attempt : List Char → Except (List Char) Extracted)
    (urls : List (List Char)) (d : ScrapeData)
    (h : ∀ u ∈ urls, ∃ e, attempt u = Except.error e) : tryUrls attempt urls d = d := by
  induction urls with
  | nil => rfl
  | cons u rest ih =>
    obtain ⟨e, he⟩ := h u (by simp)
    unfold tryUrls
    rw [he]
    exact ih (fun v hv => h v (List.mem_cons_of_mem u hv))

/-- C4 counterexample: when every candidate URL raises, `scrape_canary`
returns a result with empty lists but with NO error field — the per-URL
`except` swallows each failure, so the outer `except` that writes `error`
never fires. -/
theorem c4_counterexample :
    (scrape_canary (fun _ => Except.error (pystr "connection timeout"))).error = none ∧
    (scrape_canary (fun _ => Except.error (pystr "connection timeout"))).headlines = [] ∧
    (scrape_canary (fun _ => Except.error (pystr "connection timeout"))).keyInsights = [] ∧
    (scrape_canary (fun _ => Except.error (pystr "connection timeout"))).marketSignals = [] :=
  ⟨rfl, rfl, rfl, rfl⟩

/-- C4 amended: each per-URL exception is caught and the next URL tried, and
when every candidate URL fails the scrape returns the initial dictionary —
empty headline / insight / signal lists, empty url, and `error` NOT set — and
(being a total function) never aborts the run. -/
theorem c4_amended_all_fail (attempt : List Char → Except (List Char) Extracted)
    (h : ∀ u ∈ canaryNewsUrls, ∃ e, attempt u = Except.error e) :
    scrape_canary attempt =
      { source := pystr "Canary Media", url := [], headlines := [],
        keyInsights := [], marketSignals := [], error := none } := by
  simp only [scrape_canary]
  rw [tryUrls_all_fail attempt canaryNewsUrls _ h]
  rfl

/-- C4 witness: the amended statement at the concrete always-failing oracle. -/
theorem c4_amended_witness :
    (∀ u ∈ canaryNewsUrls, ∃ e,
      (fun _ : List Char => Except.error (ε := List Char) (α := Extracted) (pystr "connection timeout")) u
        = Except.error e) ∧
    scrape_canary (fun _ => Except.error (pystr "connection timeout")) =
      { source := pystr "Canary Media", url := [], headlines := [],
        keyInsights := [], marketSignals := [], error := none } :=
  ⟨fun _ _ => ⟨pystr "connection timeout", rfl⟩,
   c4_amended_all_fail _ (fun _ _ => ⟨pystr "connection timeout", rfl⟩)⟩

/-- C5: a ScrapeResult whose `error` field is set contributes nothing to the
daily aggregation — removing it from the scraped data leaves the whole daily
buffer unchanged (sources, headlines, insights and signals alike). -/
theorem c5_error_excluded (pre post : List (List Char × ScrapeData)) (k : List Char)
    (sd : ScrapeData) (h : sd.error.isSome = true) :
    buildDailyAgg (pre ++ (k, sd) :: post) = buildDailyAgg (pre ++ post) := by
  unfold buildDailyAgg
  rw [List.foldl_append, List.foldl_append, List.foldl_cons]
  congr 1
  unfold aggStep
  exact if_pos (Or.inr h)

/-- C5 witness: a concrete errored result is dropped from a one-element run. -/
theorem c5_error_excluded_witness :
    ({ source := pystr "Canary Media", url := [], headlines := [pystr "h"], keyInsights := [],
       marketSignals := [], error := some (pystr "boom") } : ScrapeData).error.isSome = true ∧
    buildDailyAgg [(pystr "canary",
      { source := pystr "Canary Media", url := [], headlines := [pystr "h"], keyInsights := [],
        marketSignals := [], error := some (pystr "boom") })] = buildDailyAgg [] :=
  ⟨rfl, c5_error_excluded [] [] (pystr "canary") _ rfl⟩

/-- C6: the cleaning / relevance filter keeps a cleaned string exactly when
its length is strictly between 30 and 150 and it holds a broad relevance
term, or its length is at least 150 and its 150-character truncation with an
ellipsis suffix holds a reduced-subset term (in which case the truncation is
what is kept). -/
theorem c6_relevance_filter (text out : List Char) :
    processText text = some out ↔
      (30 < (cleanedOf text).length ∧ (cleanedOf text).length < 150 ∧
        containsAnyKw relevantKeywords (cleanedOf text) = true ∧ out = cleanedOf text) ∨
      (150 ≤ (cleanedOf text).length ∧
        containsAnyKw reducedKeywords ((cleanedOf text).take 150 ++ pystr "...") = true ∧
        out = (cleanedOf text).take 150 ++ pystr "...") := by
  simp only [processText]
  generalize cleanedOf text = c
  by_cases h1 : 30 < c.length ∧ c.length < 150
  · rw [if_pos h1]
    by_cases h2 : containsAnyKw relevantKeywords c = true
    · rw [if_pos h2]
      simp only [Option.some.injEq]
      constructor
      · rintro rfl
        exact Or.inl ⟨h1.1, h1.2, h2, rfl⟩
      · rintro (⟨_, _, _, rfl⟩ | ⟨hlen, _, _⟩)
        · rfl
        · exact absurd hlen (by omega)
    · rw [if_neg h2]
      constructor
      · intro hx
        cases hx
      · rintro (⟨_, _, hkw, _⟩ | ⟨hlen, _, _⟩)
        · exact absurd hkw h2
        · exact absurd hlen (by omega)
  · rw [if_neg h1]
    by_cases h3 : 150 ≤ c.length
    · rw [if_pos h3]
      by_cases h4 : containsAnyKw reducedKeywords (c.take 150 ++ pystr "...") = true
      · rw [if_pos h4]
        simp only [Option.some.injEq]
        constructor
        · rintro rfl
          exact Or.inr ⟨h3, h4, rfl⟩
        · rintro (⟨hgt, hlt, _, _⟩ | ⟨_, _, rfl⟩)
          · exact absurd ⟨hgt, hlt⟩ h1
          · rfl
      · rw [if_neg h4]
        constructor
        · intro hx
          cases hx
        · rintro (⟨hgt, hlt, _, _⟩ | ⟨_, hkw, _⟩)
          · exact absurd ⟨hgt, hlt⟩ h1
          · exact absurd hkw h4
    · rw [if_neg h3]
      constructor
      · intro hx
        cases hx
      · rintro (⟨hgt, hlt, _, _⟩ | ⟨hlen, _, _⟩)
        · exact absurd ⟨hgt, hlt⟩ h1
        · exact absurd hlen h3

lemma reduced_subset_relevant : ∀ k ∈ reducedKeywords, k ∈ relevantKeywords := by decide

lemma containsAnyKw_mono {k1 k2 : List (List Char)} {s : List Char}
    (hsub : ∀ k ∈ k1, k ∈ k2) (h : containsAnyKw k1 s = true) :
    containsAnyKw k2 s = true := by
  unfold containsAnyKw at h ⊢
  rw [List.any_eq_true] at h ⊢
  obtain ⟨k, hk, hin⟩ := h
  exact ⟨k, hsub k hk, hin⟩

lemma processText_relevant {text out : List Char} (h : processText text = some out) :
    containsAnyKw relevantKeywords out = true := by
  simp only [processText] at h
  split_ifs at h with h1 h2 h3 h4
  · obtain rfl : cleanedOf text = out := Option.some.injEq _ _ ▸ h
    exact h2
  · obtain rfl : (cleanedOf text).take 150 ++ pystr "..." = out := Option.some.injEq _ _ ▸ h
    exact containsAnyKw_mono reduced_subset_relevant h4

lemma clean_all_relevant (l : List (List Char)) :
    (clean_and_truncate_text l).all (containsAnyKw relevantKeywords) = true := by
  rw [List.all_eq_true]
  intro x hx
  unfold clean_and_truncate_text at hx
  rw [List.mem_filterMap] at hx
  obtain ⟨a, _, ha⟩ := hx
  exact processText_relevant ha

lemma aggStep_preserves_relevant (agg : DailyAgg) (e : List Char × ScrapeData)
    (h : agg.headlines.all (containsAnyKw relevantKeywords) = true ∧
         agg.insights.all (containsAnyKw relevantKeywords) = true ∧
         agg.signals.all (containsAnyKw relevantKeywords) = true) :
    (aggStep agg e).headlines.all (containsAnyKw relevantKeywords) = true ∧
    (aggStep agg e).insights.all (containsAnyKw relevantKeywords) = true ∧
    (aggStep agg e).signals.all (containsAnyKw relevantKeywords) = true := by
  unfold aggStep
  split_ifs
  · exact h
  · simp only [List.all_append, h.1, h.2.1, h.2.2, Bool.true_and]
    exact ⟨clean_all_relevant _, clean_all_relevant _, clean_all_relevant _⟩

lemma buildDailyAgg_all_relevant (data : List (List Char × ScrapeData)) :
    (buildDailyAgg data).headlines.all (containsAnyKw relevantKeywords) = true ∧
    (buildDailyAgg data).insights.all (containsAnyKw relevantKeywords) = true ∧
    (buildDailyAgg data).signals.all (containsAnyKw relevantKeywords) = true := by
  unfold buildDailyAgg
  generalize hinit : ({ sources := [], headlines := [], insights := [], signals := [] } : DailyAgg) = agg
  have h0 : agg.headlines.all (containsAnyKw relevantKeywords) = true ∧
      agg.insights.all (containsAnyKw relevantKeywords) = true ∧
      agg.signals.all (containsAnyKw relevantKeywords) = true := by
    rw [← hinit]; exact ⟨rfl, rfl, rfl⟩
  clear hinit
  induction data generalizing agg with
  | nil => exact h0
  | cons e rest ih => exact ih _ (aggStep_preserves_relevant agg e h0)

lemma all_take {p : List Char → Bool} {l : List (List Char)} (n : Nat)
    (h : l.all p = true) : (l.take n).all p = true := by
  rw [List.all_eq_true] at h ⊢
  exact fun x hx => h x (List.take_subset n l hx)

/-- C7: the batch handed to the model call has at most 5 entries in each of
its three text fields, and every entry contains at least one term of the
relevance-keyword vocabulary. -/
theorem c7_batch_invariant (data : List (List Char × ScrapeData)) :
    (handedBatch data).headlines.length ≤ 5 ∧
    (handedBatch data).insights.length ≤ 5 ∧
    (handedBatch data).signals.length ≤ 5 ∧
    (handedBatch data).headlines.all (containsAnyKw relevantKeywords) = true ∧
    (handedBatch data).insights.all (containsAnyKw relevantKeywords) = true ∧
    (handedBatch data).signals.all (containsAnyKw relevantKeywords) = true := by
  obtain ⟨hh, hi, hs⟩ := buildDailyAgg_all_relevant data
  unfold handedBatch
  exact ⟨List.length_take_le 5 _, List.length_take_le 5 _, List.length_take_le 5 _,
    all_take 5 hh, all_take 5 hi, all_take 5 hs⟩

/-- C10: when the aggregated batch holds fewer than 2 data points in total,
no model call is issued and the text handed to the parser is the fixed
insufficient-data message. -/
theorem c10_insufficient_data (data : List (List Char × ScrapeData)) (outcome : ModelOutcome)
    (h : (handedBatch data).headlines.length + (handedBatch data).insights.length +
         (handedBatch data).signals.length < 2) :
    analysisTextFor (handedBatch data) outcome =
      (false, pystr "Unable to generate analysis due to insufficient data. Need at least 2 data points from sources.") := by
  unfold analysisTextFor
  exact if_pos h

/-!
## Membership lemmas for the string primitives, and claim C9

The key structural fact behind C9 is that a parsed narrative never contains a
newline (it is rebuilt from whitespace-free words joined by spaces and
periods), while the line loop can only capture narrative content from a line
FOLLOWING a "Key insights:" header — so re-parsing a narrative always leaves
the narrative section empty.
-/

lemma mem_pyStrip {c : Char} {s : List Char} (h : c ∈ pyStrip s) : c ∈ s := by
  unfold pyStrip at h
  rw [List.mem_reverse] at h
  have h2 := (List.dropWhile_sublist Char.isWhitespace).subset h
  rw [List.mem_reverse] at h2
  exact (List.dropWhile_sublist Char.isWhitespace).subset h2

lemma mem_pyJoin {c : Char} {sep : List Char} :
    ∀ {xs : List (List Char)}, c ∈ pyJoin sep xs → c ∈ sep ∨ ∃ x ∈ xs, c ∈ x
  | [], h => by simp [pyJoin] at h
  | [x], h => by
    exact Or.inr ⟨x, by simp, by simpa [pyJoin] using h⟩
  | x :: y :: ys, h => by
    simp only [pyJoin] at h
    rcases List.mem_append.mp h with h1 | h1
    · rcases List.mem_append.mp h1 with h2 | h2
      · exact Or.inr ⟨x, by simp, h2⟩
      · exact Or.inl h2
    · rcases mem_pyJoin h1 with h2 | ⟨z, hz, hcz⟩
      · exact Or.inl h2
      · exact Or.inr ⟨z, List.mem_cons_of_mem x hz, hcz⟩

lemma pySplitOnAux_mem {sep : List Char} {c : Char} :
    ∀ (s : List Char) (k : Nat) (x : List Char), x ∈ pySplitOnAux sep s k → c ∈ x → c ∈ s
  | [], _, x, hx, hc => by
    simp only [pySplitOnAux, List.mem_singleton] at hx
    subst hx
    cases hc
  | d :: rest, k + 1, x, hx, hc => by
    simp only [pySplitOnAux] at hx
    exact List.mem_cons_of_mem d (pySplitOnAux_mem rest k x hx hc)
  | d :: rest, 0, x, hx, hc => by
    simp only [pySplitOnAux] at hx
    by_cases hp : sep.isPrefixOf (d :: rest) = true
    · rw [if_pos hp] at hx
      rcases List.mem_cons.mp hx with rfl | hx
      · cases hc
      · exact List.mem_cons_of_mem d (pySplitOnAux_mem rest _ x hx hc)
    · rw [if_neg hp] at hx
      cases hrec : pySplitOnAux sep rest 0 with
      | nil =>
        rw [hrec] at hx
        simp only [List.mem_singleton] at hx
        subst hx
        rcases List.mem_singleton.mp hc with rfl
        exact List.mem_cons_self _ _
      | cons t ts =>
        rw [hrec] at hx
        rcases List.mem_cons.mp hx with rfl | hx
        · rcases List.mem_cons.mp hc with rfl | hc
          · exact List.mem_cons_self _ _
          · exact List.mem_cons_of_mem d
              (pySplitOnAux_mem rest 0 t (by rw [hrec]; exact List.mem_cons_self t ts) hc)
        · exact List.mem_cons_of_mem d
            (pySplitOnAux_mem rest 0 x (by rw [hrec]; exact List.mem_cons_of_mem t hx) hc)

lemma pySplitOn_mem {sep s x : List Char} {c : Char}
    (hx : x ∈ pySplitOn sep s) (hc : c ∈ x) : c ∈ s := by
  unfold pySplitOn at hx
  split_ifs at hx with h
  · rw [List.mem_singleton] at hx
    subst hx
    exact hc
  · exact pySplitOnAux_mem s 0 x hx hc

lemma pySplitWs_good :
    ∀ (s : List Char) (w : List Char), w ∈ pySplitWs s →
      w ≠ [] ∧ ∀ c ∈ w, c ∈ s ∧ c.isWhitespace = false
  | [], w, hw => by simp [pySplitWs] at hw
  | a :: rest, w, hw => by
    simp only [pySplitWs] at hw
    by_cases ha : a.isWhitespace = true
    · rw [if_pos ha] at hw
      obtain ⟨hne, hall⟩ := pySplitWs_good rest w hw
      exact ⟨hne, fun c hc => ⟨List.mem_cons_of_mem a (hall c hc).1, (hall c hc).2⟩⟩
    · rw [if_neg ha] at hw
      have ha2 : a.isWhitespace = false := by simpa using ha
      cases hrec : pySplitWs rest with
      | nil =>
        rw [hrec] at hw
        rcases List.mem_singleton.mp hw with rfl
        refine ⟨by simp, fun c hc => ?_⟩
        rcases List.mem_singleton.mp hc with rfl
        exact ⟨List.mem_cons_self _ _, ha2⟩
      | cons t ts =>
        rw [hrec] at hw
        cases rest with
        | nil => simp [pySplitWs] at hrec
        | cons d rest2 =>
          have hw2 : w ∈ (if d.isWhitespace = true then [a] :: t :: ts else (a :: t) :: ts) := hw
          clear hw
          by_cases hd : d.isWhitespace = true
          · rw [if_pos hd] at hw2
            rcases List.mem_cons.mp hw2 with rfl | hw
            · refine ⟨by simp, fun c hc => ?_⟩
              rcases List.mem_singleton.mp hc with rfl
              exact ⟨List.mem_cons_self _ _, ha2⟩
            · obtain ⟨hne, hall⟩ := pySplitWs_good (d :: rest2) w (by rw [hrec]; exact hw)
              exact ⟨hne, fun c hc => ⟨List.mem_cons_of_mem a (hall c hc).1, (hall c hc).2⟩⟩
          · rw [if_neg hd] at hw2
            rcases List.mem_cons.mp hw2 with rfl | hw
            · obtain ⟨hne, hall⟩ := pySplitWs_good (d :: rest2) t
                (by rw [hrec]; exact List.mem_cons_self t ts)
              refine ⟨by simp, fun c hc => ?_⟩
              rcases List.mem_cons.mp hc with rfl | hc
              · exact ⟨List.mem_cons_self _ _, ha2⟩
              · exact ⟨List.mem_cons_of_mem a (hall c hc).1, (hall c hc).2⟩
            · obtain ⟨hne, hall⟩ := pySplitWs_good (d :: rest2) w
                (by rw [hrec]; exact List.mem_cons_of_mem t hw)
              exact ⟨hne, fun c hc => ⟨List.mem_cons_of_mem a (hall c hc).1, (hall c hc).2⟩⟩

/-- The 200-word normalizer rebuilds its output from whitespace-free words and
the separators " ", ". ", ".", "...", so its output never contains a newline. -/
lemma noNL_wordLimit200 (s : List Char) : ('\n' : Char) ∉ wordLimit200 s := by
  intro hmem
  simp only [wordLimit200] at hmem
  have hw : ∀ w ∈ pySplitWs s, ('\n' : Char) ∉ w := by
    intro w hwmem hcw
    have := ((pySplitWs_good s w hwmem).2 '\n' hcw).2
    simp at this
  split_ifs at hmem with h1 h2
  · rcases List.mem_append.mp hmem with hmem | hmem
    · rcases mem_pyJoin hmem with hsep | ⟨x, hx, hcx⟩
      · exact absurd hsep (by decide)
      · have hx2 : x ∈ pySplitOn (pystr ".") (pyJoin (pystr " ") ((pySplitWs s).take 200)) :=
          List.mem_of_mem_dropLast hx
        have := pySplitOn_mem hx2 hcx
        rcases mem_pyJoin this with hsep | ⟨w, hw2, hcw⟩
        · exact absurd hsep (by decide)
        · exact hw w (List.take_subset 200 _ hw2) hcw
    · exact absurd hmem (by decide)
  · rcases List.mem_append.mp hmem with hmem | hmem
    · rcases mem_pyJoin hmem with hsep | ⟨w, hw2, hcw⟩
      · exact absurd hsep (by decide)
      · exact hw w (List.take_subset 200 _ hw2) hcw
    · exact absurd hmem (by decide)
  · rcases mem_pyJoin hmem with hsep | ⟨w, hw2, hcw⟩
    · exact absurd hsep (by decide)
    · exact hw w hw2 hcw

/-- The narrative of every parsed record is newline-free: both cleanup passes
end in the 200-word normalizer (or return the empty narrative unchanged). -/
lemma noNL_kiCleanupD (ki : List Char) :
    ('\n' : Char) ∉ kiCleanupD ki := by
  unfold kiCleanupD
  split_ifs with he
  · simp [he]
  · exact noNL_wordLimit200 _

lemma noNL_narrative (t today src : List Char) :
    ('\n' : Char) ∉ (parseAnalysisCore t today src).keyInsights := by
  simp only [parseAnalysisCore]
  exact noNL_kiCleanupD _

/-- Splitting on a single character that does not occur returns the whole
string as the only piece. -/
lemma pySplitOnAux_single_none (ch : Char) :
    ∀ (s : List Char), ch ∉ s → pySplitOnAux [ch] s 0 = [s]
  | [], _ => rfl
  | d :: rest, h => by
    have hd : ch ≠ d := fun he => h (he ▸ List.mem_cons_self _ _)
    have hrest : ch ∉ rest := fun hm => h (List.mem_cons_of_mem d hm)
    simp only [pySplitOnAux]
    rw [if_neg (by simp [List.isPrefixOf, hd])]
    rw [pySplitOnAux_single_none ch rest hrest]

lemma pySplitOn_newline_single {n : List Char} (h : ('\n' : Char) ∉ n) :
    pySplitOn (pystr "\n") n = [n] := by
  have hkey : pystr "\n" = ['\n'] := rfl
  rw [hkey]
  unfold pySplitOn
  rw [if_neg (by simp)]
  exact pySplitOnAux_single_none '\n' n h

/-- A single processed line starting from the initial loop state never
populates the narrative: a header line only opens a section, and a content
line finds no open section. -/
lemma processLine_init_ki (today n : List Char) :
    (processLine
      { date := today
        ki := []
        sig := []
        risk := []
        cur := none
        content := [] } n).ki = [] := by
  simp only [processLine]
  split_ifs <;> rfl

/-- Parsing any newline-free text yields an empty narrative. -/
lemma parse_single_line (n today src : List Char) (h : ('\n' : Char) ∉ n) :
    (parseAnalysisCore n today src).keyInsights = [] := by
  simp only [parseAnalysisCore]
  rw [pySplitOn_newline_single h, List.foldl_cons, List.foldl_nil, riskBlock_ki]
  rw [processLine_init_ki today n]
  rfl

/-- C9 counterexample: the parser is not idempotent on its own narrative —
for the concrete well-formed response `c9Text` the narrative of a re-parse
differs from the first narrative. -/
theorem c9_counterexample :
    (parseAnalysisCore ((parseAnalysisCore c9Text (pystr "2025-01-01") (pystr "src")).keyInsights)
        (pystr "2025-01-01") (pystr "src")).keyInsights ≠
      (parseAnalysisCore c9Text (pystr "2025-01-01") (pystr "src")).keyInsights := by
  decide

/-- C9 amended: feeding the narrative of a parsed record back through the
parser always yields an EMPTY narrative (the narrative is newline-free, and a
single-line text never populates the narrative section), so re-parsing
preserves the narrative exactly when the first narrative is empty. -/
theorem c9_amended_reparse_empty (t today src : List Char) :
    (parseAnalysisCore ((parseAnalysisCore t today src).keyInsights) today src).keyInsights
      = [] :=
  parse_single_line _ today src (noNL_narrative t today src)

/-!
## Word-count machinery for claim C8

`wordCount` is monotone under sublists (deleting characters can merge words
but never create them); this is proved jointly with monotonicity of
`wordCountB`, which also accounts for the leading word boundary.
-/

lemma pySplitWs_cons_ws {c : Char} (h : c.isWhitespace = true) (x : List Char) :
    pySplitWs (c :: x) = pySplitWs x := by
  simp only [pySplitWs, h, if_true]

lemma pySplitWs_ne_nil {d : Char} (hd : d.isWhitespace = false) (y : List Char) :
    pySplitWs (d :: y) ≠ [] := by
  intro hcontra
  simp only [pySplitWs, hd, Bool.false_eq_true, if_false] at hcontra
  split at hcontra
  · cases hcontra
  · split at hcontra
    · cases hcontra
    · split at hcontra <;> cases hcontra

lemma wordCount_cons_ws {c : Char} (h : c.isWhitespace = true) (x : List Char) :
    wordCount (c :: x) = wordCount x := by
  unfold wordCount
  rw [pySplitWs_cons_ws h]

lemma wordCount_cons_formula {c : Char} (hc : c.isWhitespace = false) (x : List Char) :
    wordCount (c :: x) = wordCount x + wsBump x := by
  unfold wordCount wsBump
  cases x with
  | nil => simp [pySplitWs, hc]
  | cons d x2 =>
    conv_lhs => rw [pySplitWs.eq_def]
    simp only [hc, Bool.false_eq_true, if_false]
    by_cases hd : d.isWhitespace = true
    · cases hrec : pySplitWs (d :: x2) with
      | nil => simp [hrec, hd]
      | cons t ts => simp [hrec, hd]
    · cases hrec : pySplitWs (d :: x2) with
      | nil => exact absurd hrec (pySplitWs_ne_nil (by simpa using hd) x2)
      | cons t ts => simp [hrec, hd]

lemma wsBump_le_one (x : List Char) : wsBump x ≤ 1 := by
  unfold wsBump
  cases x with
  | nil => exact le_refl 1
  | cons d t =>
    show (if d.isWhitespace = true then 1 else 0) ≤ 1
    split_ifs <;> simp

lemma wordCount_le_cons (c : Char) (x : List Char) : wordCount x ≤ wordCount (c :: x) := by
  by_cases hc : c.isWhitespace = true
  · rw [wordCount_cons_ws hc]
  · rw [wordCount_cons_formula (by simpa using hc)]
    exact Nat.le_add_right _ _

lemma wordCountB_le_cons (c : Char) (x : List Char) : wordCountB x ≤ wordCountB (c :: x) := by
  by_cases hc : c.isWhitespace = true
  · unfold wordCountB
    rw [wordCount_cons_ws hc]
    have h1 : wsBump (c :: x) = 1 := by simp [wsBump, hc]
    rw [h1]
    have := wsBump_le_one x
    omega
  · have hc' : c.isWhitespace = false := by simpa using hc
    unfold wordCountB
    rw [wordCount_cons_formula hc']
    have h1 : wsBump (c :: x) = 0 := by simp [wsBump, hc']
    rw [h1]
    omega

lemma wordCount_sublist_mono {u v : List Char} (h : u.Sublist v) :
    wordCount u ≤ wordCount v ∧ wordCountB u ≤ wordCountB v := by
  induction h with
  | slnil => exact ⟨le_refl _, le_refl _⟩
  | cons c _ ih =>
    exact ⟨le_trans ih.1 (wordCount_le_cons c _), le_trans ih.2 (wordCountB_le_cons c _)⟩
  | cons₂ c hsub ih =>
    by_cases hc : c.isWhitespace = true
    · constructor
      · rw [wordCount_cons_ws hc, wordCount_cons_ws hc]
        exact ih.1
      · unfold wordCountB
        rw [wordCount_cons_ws hc, wordCount_cons_ws hc]
        simp only [wsBump, hc, if_true]
        omega
    · have hc' : c.isWhitespace = false := by simpa using hc
      have hb : ∀ y : List Char, wsBump (c :: y) = 0 := fun y => by simp [wsBump, hc']
      constructor
      · rw [wordCount_cons_formula hc', wordCount_cons_formula hc']
        exact ih.2
      · unfold wordCountB
        rw [wordCount_cons_formula hc', wordCount_cons_formula hc', hb, hb]
        have := ih.2
        unfold wordCountB at this
        omega

/-!
## Period-spacing machinery for claim C8

`PSb` (every period directly followed by a space or at the very end) is the
shape of any text rebuilt by the sentence re-join of `wordLimit200`. It is
closed under taking infixes and under the pattern removals of the final
narrative cleanup, and on a `PSb` text the sentence re-join cannot create new
words.
-/

lemma PSb_tail {c : Char} {x : List Char} (h : PSb (c :: x) = true) : PSb x = true := by
  cases x with
  | nil => rfl
  | cons d x2 =>
    simp only [PSb, Bool.and_eq_true] at h
    exact h.2

lemma PSb_cons_period {d : Char} {x : List Char} (h : PSb ('.' :: d :: x) = true) : d = ' ' := by
  have h2 : ((if ('.' : Char) = '.' then d == ' ' else true) && PSb (d :: x)) = true := h
  rw [if_pos rfl] at h2
  exact beq_iff_eq.mp ((Bool.and_eq_true _ _).mp h2).1

lemma PSb_cons_of_ne {c : Char} {x : List Char} (hc : c ≠ '.') (h : PSb x = true) :
    PSb (c :: x) = true := by
  cases x with
  | nil => rfl
  | cons d x2 =>
    simp only [PSb, if_neg hc, Bool.true_and]
    exact h

lemma PSb_suffix {u v : List Char} (h : u <:+ v) (hv : PSb v = true) : PSb u = true := by
  obtain ⟨p, rfl⟩ := h
  induction p with
  | nil => exact hv
  | cons c p2 ih => exact ih (PSb_tail hv)

lemma PSb_prefix {u v : List Char} (h : u <+: v) (hv : PSb v = true) : PSb u = true := by
  obtain ⟨q, rfl⟩ := h
  induction u with
  | nil => rfl
  | cons a u2 ih =>
    cases u2 with
    | nil => rfl
    | cons b u3 =>
      simp only [List.cons_append, PSb, Bool.and_eq_true] at hv ⊢
      exact ⟨hv.1, by
        have := ih (by simpa [List.cons_append] using hv.2)
        simpa using this⟩

lemma PSb_of_isInfix {u v : List Char} (h : u <:+: v) (hv : PSb v = true) : PSb u = true := by
  obtain ⟨p, q, rfl⟩ := h
  exact PSb_prefix (List.prefix_append u q) (PSb_suffix (by simp [List.suffix_append, List.append_assoc]) hv)

lemma pyStrip_isInfix (s : List Char) : pyStrip s <:+: s := by
  unfold pyStrip
  have h1 : s.dropWhile Char.isWhitespace <:+ s := List.dropWhile_suffix _
  have h2 : ((s.dropWhile Char.isWhitespace).reverse.dropWhile Char.isWhitespace).reverse <+:
      s.dropWhile Char.isWhitespace := by
    have key : ((s.dropWhile Char.isWhitespace).reverse.dropWhile Char.isWhitespace).reverse <+:
        (s.dropWhile Char.isWhitespace).reverse.reverse :=
      List.reverse_prefix.mpr (List.dropWhile_suffix _)
    rwa [List.reverse_reverse] at key
  exact h2.isInfix.trans h1.isInfix

lemma pySplitOnAux_skip (sep : List Char) :
    ∀ (s : List Char) (k : Nat), pySplitOnAux sep s k = pySplitOnAux sep (s.drop k) 0
  | [], k => by cases k <;> rfl
  | c :: rest, 0 => rfl
  | c :: rest, k + 1 => by
    simp only [pySplitOnAux, List.drop_succ_cons]
    exact pySplitOnAux_skip sep rest k

lemma pyRemoveAllAux_skip (pat : List Char) :
    ∀ (s : List Char) (k : Nat), pyRemoveAllAux pat s k = pyRemoveAllAux pat (s.drop k) 0
  | [], k => by cases k <;> rfl
  | c :: rest, 0 => rfl
  | c :: rest, k + 1 => by
    simp only [pyRemoveAllAux, List.drop_succ_cons]
    exact pyRemoveAllAux_skip pat rest k

lemma pySplitOnAux_ne_nil (sep : List Char) :
    ∀ (s : List Char) (k : Nat), pySplitOnAux sep s k ≠ []
  | [], k => by cases k <;> simp [pySplitOnAux]
  | c :: rest, 0 => by
    simp only [pySplitOnAux]
    split_ifs
    · simp
    · cases hrec : pySplitOnAux sep rest 0 <;> simp
  | c :: rest, k + 1 => by
    simp only [pySplitOnAux]
    exact pySplitOnAux_ne_nil sep rest k

lemma pySplitOnAux_single_elem (ch : Char) :
    ∀ (s : List Char) (k : Nat) (x : List Char), x ∈ pySplitOnAux [ch] s k → ch ∉ x
  | [], k, x, hx => by
    cases k <;> simp only [pySplitOnAux, List.mem_singleton] at hx <;> simp [hx]
  | d :: rest, k + 1, x, hx => by
    simp only [pySplitOnAux] at hx
    exact pySplitOnAux_single_elem ch rest k x hx
  | d :: rest, 0, x, hx => by
    simp only [pySplitOnAux] at hx
    by_cases hp : [ch].isPrefixOf (d :: rest) = true
    · rw [if_pos hp] at hx
      rcases List.mem_cons.mp hx with rfl | hx
      · simp
      · exact pySplitOnAux_single_elem ch rest _ x hx
    · rw [if_neg hp] at hx
      have hd : ch ≠ d := by
        intro he
        exact hp (by simp [List.isPrefixOf, he])
      cases hrec : pySplitOnAux [ch] rest 0 with
      | nil => exact absurd hrec (pySplitOnAux_ne_nil [ch] rest 0)
      | cons t ts =>
        rw [hrec] at hx
        rcases List.mem_cons.mp hx with rfl | hx
        · intro hin
          rcases List.mem_cons.mp hin with rfl | hin
          · exact hd rfl
          · exact pySplitOnAux_single_elem ch rest 0 t
              (by rw [hrec]; exact List.mem_cons_self t ts) hin
        · exact pySplitOnAux_single_elem ch rest 0 x
            (by rw [hrec]; exact List.mem_cons_of_mem t hx)

lemma pySplitOnAux_parts (sep : List Char) :
    ∀ (n : Nat) (s : List Char), s.length ≤ n →
      ∃ t ts, pySplitOnAux sep s 0 = t :: ts ∧ t <+: s ∧ ∀ x ∈ ts, x <:+: s := by
  intro n
  induction n with
  | zero =>
    intro s hs
    rw [List.length_eq_zero.mp (Nat.le_zero.mp hs)]
    exact ⟨[], [], rfl, List.nil_prefix, by simp⟩
  | succ n ih =>
    intro s hs
    cases s with
    | nil => exact ⟨[], [], rfl, List.nil_prefix, by simp⟩
    | cons c rest =>
      have hrest : rest.length ≤ n := by
        simp only [List.length_cons] at hs
        omega
      simp only [pySplitOnAux]
      by_cases hp : sep.isPrefixOf (c :: rest) = true
      · rw [if_pos hp, pySplitOnAux_skip]
        obtain ⟨t, ts, heq, hpre, hinf⟩ := ih (rest.drop (sep.length - 1))
          (le_trans (by simpa using List.length_drop_le _ _) hrest)
        refine ⟨[], t :: ts, by rw [heq], List.nil_prefix, ?_⟩
        intro x hx
        have hsuf : rest.drop (sep.length - 1) <:+ c :: rest :=
          (List.drop_suffix _ _).trans (List.suffix_cons c rest)
        rcases List.mem_cons.mp hx with rfl | hx
        · exact hpre.isInfix.trans hsuf.isInfix
        · exact (hinf x hx).trans hsuf.isInfix
      · rw [if_neg hp]
        obtain ⟨t, ts, heq, hpre, hinf⟩ := ih rest hrest
        rw [heq]
        refine ⟨c :: t, ts, rfl, List.cons_prefix_cons.mpr ⟨rfl, hpre⟩, ?_⟩
        intro x hx
        exact (hinf x hx).trans (List.suffix_cons c rest).isInfix

lemma pySplitOn_getD_one_isInfix (sep s : List Char) : (pySplitOn sep s).getD 1 [] <:+: s := by
  unfold pySplitOn
  split_ifs with h
  · simp [List.nil_infix]
  · obtain ⟨t, ts, heq, _, hinf⟩ := pySplitOnAux_parts sep s.length s (le_refl _)
    rw [heq]
    cases ts with
    | nil => exact List.nil_infix
    | cons x ts2 => exact hinf x (List.mem_cons_self x ts2)

/-!
## Splitting a space-join of words recovers the words
-/

/-- A good word list: every member is non-empty and whitespace-free (exactly
what `pySplitWs` produces). -/
lemma pySplitWs_single_word :
    ∀ (w : List Char), w ≠ [] → (∀ c ∈ w, c.isWhitespace = false) → pySplitWs w = [w]
  | [], h, _ => absurd rfl h
  | [c], _, hall => by
    simp [pySplitWs, hall c (by simp)]
  | c :: d :: w2, _, hall => by
    have hih := pySplitWs_single_word (d :: w2) (by simp)
      (fun e he => hall e (List.mem_cons_of_mem c he))
    have hc : c.isWhitespace = false := hall c (by simp)
    have hd : d.isWhitespace = false := hall d (by simp)
    conv_lhs => rw [pySplitWs.eq_def]
    simp only [hc, Bool.false_eq_true, if_false, hih, hd]

lemma pySplitWs_word_space :
    ∀ (w : List Char), w ≠ [] → (∀ c ∈ w, c.isWhitespace = false) →
      ∀ (z : List Char), pySplitWs (w ++ ' ' :: z) = w :: pySplitWs z
  | [], h, _, _ => absurd rfl h
  | [c], _, hall, z => by
    have hc : c.isWhitespace = false := hall c (by simp)
    have hsp : pySplitWs (' ' :: z) = pySplitWs z := pySplitWs_cons_ws (by decide) z
    conv_lhs => rw [List.singleton_append, pySplitWs.eq_def]
    simp only [hc, Bool.false_eq_true, if_false, hsp]
    cases hrec : pySplitWs z with
    | nil => simp
    | cons t ts => simp
  | c :: d :: w2, _, hall, z => by
    have hih := pySplitWs_word_space (d :: w2) (by simp)
      (fun e he => hall e (List.mem_cons_of_mem c he)) z
    have hc : c.isWhitespace = false := hall c (by simp)
    have hd : d.isWhitespace = false := hall d (by simp)
    conv_lhs => rw [List.cons_append, pySplitWs.eq_def]
    rw [List.cons_append] at hih
    simp only [hih, List.cons_append, hc, hd, Bool.false_eq_true, if_false]

lemma pySplitWs_join :
    ∀ (ws : List (List Char)),
      (∀ w ∈ ws, w ≠ [] ∧ ∀ c ∈ w, c.isWhitespace = false) →
      pySplitWs (pyJoin (pystr " ") ws) = ws
  | [], _ => rfl
  | [x], hgood => by
    obtain ⟨hne, hall⟩ := hgood x (by simp)
    simpa [pyJoin] using pySplitWs_single_word x hne hall
  | x :: y :: ys, hgood => by
    obtain ⟨hne, hall⟩ := hgood x (by simp)
    have hih := pySplitWs_join (y :: ys) (fun w hw => hgood w (List.mem_cons_of_mem x hw))
    have : pyJoin (pystr " ") (x :: y :: ys) = x ++ ' ' :: pyJoin (pystr " ") (y :: ys) := by
      simp [pyJoin, pystr]
    rw [this, pySplitWs_word_space x hne hall, hih]

lemma wordCount_join (ws : List (List Char))
    (hgood : ∀ w ∈ ws, w ≠ [] ∧ ∀ c ∈ w, c.isWhitespace = false) :
    wordCount (pyJoin (pystr " ") ws) = ws.length := by
  unfold wordCount
  rw [pySplitWs_join ws hgood]

/-- Appending whitespace-free text to a space-join extends the last word. -/
lemma pyJoin_append_last (sep : List Char) :
    ∀ (ws : List (List Char)) (x y : List Char),
      pyJoin sep (ws ++ [x]) ++ y = pyJoin sep (ws ++ [x ++ y])
  | [], x, y => by simp [pyJoin]
  | [w], x, y => by simp [pyJoin, List.append_assoc]
  | w :: w2 :: ws3, x, y => by
    have hih := pyJoin_append_last sep (w2 :: ws3) x y
    show (w ++ sep ++ pyJoin sep (w2 :: (ws3 ++ [x]))) ++ y =
      w ++ sep ++ pyJoin sep (w2 :: (ws3 ++ [x ++ y]))
    rw [List.append_assoc (w ++ sep)]
    rw [show pyJoin sep (w2 :: (ws3 ++ [x])) ++ y = pyJoin sep (w2 :: (ws3 ++ [x ++ y])) from hih]

lemma wordCount_join_ext (ws : List (List Char)) (y : List Char)
    (hgood : ∀ w ∈ ws, w ≠ [] ∧ ∀ c ∈ w, c.isWhitespace = false)
    (hws : ws ≠ []) (hy : ∀ c ∈ y, c.isWhitespace = false) :
    wordCount (pyJoin (pystr " ") ws ++ y) = ws.length := by
  have hsplit : ws = ws.dropLast ++ [ws.getLast hws] := (List.dropLast_append_getLast hws).symm
  conv_lhs => rw [hsplit, pyJoin_append_last]
  have hgood2 : ∀ w ∈ ws.dropLast ++ [ws.getLast hws ++ y],
      w ≠ [] ∧ ∀ c ∈ w, c.isWhitespace = false := by
    intro w hw
    rcases List.mem_append.mp hw with hw | hw
    · exact hgood w (List.mem_of_mem_dropLast hw)
    · rcases List.mem_singleton.mp hw with rfl
      obtain ⟨hne, hall⟩ := hgood (ws.getLast hws) (List.getLast_mem hws)
      refine ⟨by simp [hne], fun c hc => ?_⟩
      rcases List.mem_append.mp hc with hc | hc
      · exact hall c hc
      · exact hy c hc
  rw [wordCount_join _ hgood2]
  rw [List.length_append, List.length_dropLast, List.length_singleton]
  have := List.length_pos.mpr hws
  omega

/-!
## The sentence re-join is exactly `respace`, which adds no words to a
period-spaced text
-/

lemma pyJoin_cons_head (sep : List Char) (c : Char) (t : List Char) (ts : List (List Char)) :
    pyJoin sep ((c :: t) :: ts) = c :: pyJoin sep (t :: ts) := by
  cases ts with
  | nil => rfl
  | cons u ts2 => simp [pyJoin]

lemma pyJoin_split_respace :
    ∀ (t : List Char), pyJoin (pystr ". ") (pySplitOnAux ['.'] t 0) = respace t
  | [] => rfl
  | c :: rest => by
    by_cases hc : c = '.'
    · subst hc
      have hp : ['.'].isPrefixOf ('.' :: rest) = true := by simp [List.isPrefixOf]
      simp only [pySplitOnAux, hp, if_true, List.length_singleton, Nat.sub_self]
      cases hrec : pySplitOnAux ['.'] rest 0 with
      | nil => exact absurd hrec (pySplitOnAux_ne_nil _ rest 0)
      | cons p ps =>
        have hih := pyJoin_split_respace rest
        rw [hrec] at hih
        show pyJoin (pystr ". ") ([] :: p :: ps) = respace ('.' :: rest)
        have hj : pyJoin (pystr ". ") ([] :: p :: ps) =
            '.' :: ' ' :: pyJoin (pystr ". ") (p :: ps) := by
          simp [pyJoin, pystr]
        rw [hj, hih]
        simp [respace]
    · have hp : ['.'].isPrefixOf (c :: rest) = false := by
        have hne : ¬(('.' : Char) = c) := fun he => hc he.symm
        simp [List.isPrefixOf, hne]
      simp only [pySplitOnAux, hp, Bool.false_eq_true, if_false]
      cases hrec : pySplitOnAux ['.'] rest 0 with
      | nil => exact absurd hrec (pySplitOnAux_ne_nil _ rest 0)
      | cons p ps =>
        have hih := pyJoin_split_respace rest
        rw [hrec] at hih
        rw [pyJoin_cons_head, hih]
        simp [respace, hc]

lemma respace_wsBump (x : List Char) : wsBump (respace x) = wsBump x := by
  cases x with
  | nil => rfl
  | cons d r =>
    by_cases hd : d = '.'
    · subst hd
      simp [respace, wsBump]
    · simp [respace, hd, wsBump]

lemma pySplitWs_cons_congr {c : Char} {X Y : List Char} (hc : c.isWhitespace = false)
    (h1 : pySplitWs X = pySplitWs Y) (h2 : wsBump X = wsBump Y) :
    pySplitWs (c :: X) = pySplitWs (c :: Y) := by
  conv_lhs => rw [pySplitWs.eq_def]
  conv_rhs => rw [pySplitWs.eq_def]
  simp only [hc, Bool.false_eq_true, if_false]
  cases hX : pySplitWs X with
  | nil =>
    have hY : pySplitWs Y = [] := by rw [← h1]; exact hX
    simp only [hX, hY]
  | cons t ts =>
    have hY : pySplitWs Y = t :: ts := by rw [← h1]; exact hX
    simp only [hX, hY]
    cases X with
    | nil => simp [pySplitWs] at hX
    | cons e X2 =>
      cases Y with
      | nil => simp [pySplitWs] at hY
      | cons f Y2 =>
        have hef : e.isWhitespace = f.isWhitespace := by
          simp only [wsBump] at h2
          by_cases he : e.isWhitespace = true <;> by_cases hf : f.isWhitespace = true <;>
            simp_all
        show (if e.isWhitespace = true then [c] :: t :: ts else (c :: t) :: ts) =
          (if f.isWhitespace = true then [c] :: t :: ts else (c :: t) :: ts)
        rw [hef]

lemma respace_splitWs : ∀ (t : List Char), PSb t = true → pySplitWs (respace t) = pySplitWs t
  | [], _ => rfl
  | c :: rest, h => by
    by_cases hc : c = '.'
    · subst hc
      cases rest with
      | nil => decide
      | cons d r2 =>
        have hd : d = ' ' := PSb_cons_period h
        subst hd
        have hr2 : PSb r2 = true := PSb_tail (PSb_tail h)
        have ih := respace_splitWs r2 hr2
        have hre : respace ('.' :: ' ' :: r2) = '.' :: ' ' :: ' ' :: respace r2 := by
          simp [respace]
        rw [hre]
        apply pySplitWs_cons_congr (by decide)
        · rw [pySplitWs_cons_ws (by decide), pySplitWs_cons_ws (by decide),
            pySplitWs_cons_ws (by decide), ih]
        · rfl
    · have hr : PSb rest = true := PSb_tail h
      have ih := respace_splitWs rest hr
      have hre : respace (c :: rest) = c :: respace rest := by simp [respace, hc]
      rw [hre]
      by_cases hcw : c.isWhitespace = true
      · rw [pySplitWs_cons_ws hcw, pySplitWs_cons_ws hcw, ih]
      · exact pySplitWs_cons_congr (by simpa using hcw) ih (respace_wsBump rest)
  termination_by t => t.length

lemma wordCount_respace {t : List Char} (h : PSb t = true) :
    wordCount (respace t) = wordCount t := by
  unfold wordCount
  rw [respace_splitWs t h]

/-!
## PSb is preserved by the narrative cleanup removals and holds for rebuilt
texts
-/

lemma PSb_removeAllAux (p0 : Char) (pat2 : List Char) (hne : p0 ≠ ' ') :
    ∀ (n : Nat) (s : List Char), s.length ≤ n → PSb s = true →
      PSb (pyRemoveAllAux (p0 :: pat2) s 0) = true := by
  intro n
  induction n with
  | zero =>
    intro s hs _
    rw [List.length_eq_zero.mp (Nat.le_zero.mp hs)]
    rfl
  | succ n ih =>
    intro s hs hp
    cases s with
    | nil => rfl
    | cons c rest =>
      have hrest : rest.length ≤ n := by
        simp only [List.length_cons] at hs
        omega
      simp only [pyRemoveAllAux]
      by_cases hpre : (p0 :: pat2).isPrefixOf (c :: rest) = true
      · rw [if_pos hpre, pyRemoveAllAux_skip]
        refine ih _ (le_trans (by simpa using List.length_drop_le _ _) hrest) ?_
        exact PSb_suffix ((List.drop_suffix _ _).trans (List.suffix_cons c rest)) hp
      · rw [if_neg hpre]
        have hPrest : PSb rest = true := PSb_tail hp
        have hres := ih rest hrest hPrest
        by_cases hc : c = '.'
        · subst hc
          cases rest with
          | nil => rfl
          | cons d r2 =>
            have hd : d = ' ' := PSb_cons_period hp
            subst hd
            have hstep : pyRemoveAllAux (p0 :: pat2) (' ' :: r2) 0 =
                ' ' :: pyRemoveAllAux (p0 :: pat2) r2 0 := by
              simp only [pyRemoveAllAux]
              rw [if_neg (by simp [List.isPrefixOf, hne])]
            rw [hstep]
            rw [hstep] at hres
            show ((if ('.' : Char) = '.' then (' ' : Char) == ' ' else true) &&
              PSb (' ' :: pyRemoveAllAux (p0 :: pat2) r2 0)) = true
            rw [if_pos rfl]
            simpa using hres
        · exact PSb_cons_of_ne hc hres

lemma PSb_pyRemoveAll (p0 : Char) (pat2 : List Char) (hne : p0 ≠ ' ') (s : List Char)
    (h : PSb s = true) : PSb (pyRemoveAll (p0 :: pat2) s) = true := by
  unfold pyRemoveAll
  rw [if_neg (by simp)]
  exact PSb_removeAllAux p0 pat2 hne s.length s (le_refl _) h

lemma PSb_words : ∀ (u : List Char), PSb u = true →
    ∀ w ∈ pySplitWs u, ('.' : Char) ∉ w.dropLast
  | [], _, w, hw => by simp [pySplitWs] at hw
  | a :: rest, h, w, hw => by
    by_cases ha : a.isWhitespace = true
    · rw [pySplitWs_cons_ws ha] at hw
      exact PSb_words rest (PSb_tail h) w hw
    · rw [pySplitWs.eq_def] at hw
      simp only [ha, Bool.false_eq_true, if_false] at hw
      cases hrec : pySplitWs rest with
      | nil =>
        rw [hrec] at hw
        rcases List.mem_singleton.mp hw with rfl
        simp
      | cons t ts =>
        rw [hrec] at hw
        cases rest with
        | nil => simp [pySplitWs] at hrec
        | cons d r2 =>
          have hw2 : w ∈ (if d.isWhitespace = true then [a] :: t :: ts else (a :: t) :: ts) := hw
          clear hw
          by_cases hd : d.isWhitespace = true
          · rw [if_pos hd] at hw2
            rcases List.mem_cons.mp hw2 with rfl | hw3
            · simp
            · exact PSb_words (d :: r2) (PSb_tail h) w (by rw [hrec]; exact hw3)
          · rw [if_neg hd] at hw2
            have hanp : a ≠ '.' := by
              intro he
              subst he
              exact hd (by rw [PSb_cons_period h]; decide)
            rcases List.mem_cons.mp hw2 with rfl | hw3
            · have ht := PSb_words (d :: r2) (PSb_tail h) t
                (by rw [hrec]; exact List.mem_cons_self t ts)
              cases t with
              | nil => simp
              | cons u us =>
                intro hmem
                rw [show (a :: u :: us).dropLast = a :: (u :: us).dropLast from rfl] at hmem
                rcases List.mem_cons.mp hmem with he | hmem2
                · exact hanp he.symm
                · exact ht hmem2
            · exact PSb_words (d :: r2) (PSb_tail h) w
                (by rw [hrec]; exact List.mem_cons_of_mem t hw3)

lemma PSb_append_word : ∀ (w : List Char), ('.' : Char) ∉ w.dropLast →
    ∀ (z : List Char), PSb z = true → (z = [] ∨ ∃ z2, z = ' ' :: z2) →
      PSb (w ++ z) = true
  | [], _, z, hz, _ => hz
  | [a], _, z, hz, hshape => by
    rcases hshape with rfl | ⟨z2, rfl⟩
    · rfl
    · show ((if a = '.' then (' ' : Char) == ' ' else true) && PSb (' ' :: z2)) = true
      split_ifs <;> simp [hz]
  | a :: b :: w2, h, z, hz, hshape => by
    have ha : a ≠ '.' := by
      intro he
      exact h (he ▸ List.mem_cons_self a _)
    have hih := PSb_append_word (b :: w2)
      (fun hm => h (List.mem_cons_of_mem a hm)) z hz hshape
    exact PSb_cons_of_ne ha hih

lemma PSb_join_words : ∀ (ws : List (List Char)),
    (∀ w ∈ ws, ('.' : Char) ∉ w.dropLast) → PSb (pyJoin (pystr " ") ws) = true
  | [], _ => rfl
  | [x], hall => by
    have := PSb_append_word x (hall x (by simp)) [] rfl (Or.inl rfl)
    simpa [pyJoin] using this
  | x :: y :: ys, hall => by
    have hih := PSb_join_words (y :: ys) (fun w hw => hall w (List.mem_cons_of_mem x hw))
    have heq : pyJoin (pystr " ") (x :: y :: ys) =
        x ++ ' ' :: pyJoin (pystr " ") (y :: ys) := by
      simp [pyJoin, pystr]
    rw [heq]
    refine PSb_append_word x (hall x (by simp)) _ ?_ (Or.inr ⟨_, rfl⟩)
    cases hj : pyJoin (pystr " ") (y :: ys) with
    | nil => rfl
    | cons j J2 =>
      rw [hj] at hih
      exact PSb_cons_of_ne (by decide) hih

lemma PSb_periodfree_append : ∀ (x : List Char), ('.' : Char) ∉ x →
    ∀ (z : List Char), PSb z = true → PSb (x ++ z) = true
  | [], _, _, hz => hz
  | a :: x2, h, z, hz => by
    have ha : a ≠ '.' := fun he => h (he ▸ List.mem_cons_self a x2)
    exact PSb_cons_of_ne ha
      (PSb_periodfree_append x2 (fun hm => h (List.mem_cons_of_mem a hm)) z hz)

lemma PSb_join_periods : ∀ (xs : List (List Char)), (∀ x ∈ xs, ('.' : Char) ∉ x) →
    PSb (pyJoin (pystr ". ") xs ++ ['.']) = true
  | [], _ => rfl
  | [x], hall => by
    have := PSb_periodfree_append x (hall x (by simp)) ['.'] rfl
    simpa [pyJoin] using this
  | x :: y :: ys, hall => by
    have hih := PSb_join_periods (y :: ys) (fun w hw => hall w (List.mem_cons_of_mem x hw))
    have hz : PSb ('.' :: ' ' :: (pyJoin (pystr ". ") (y :: ys) ++ ['.'])) = true := by
      show ((if ('.' : Char) = '.' then (' ' : Char) == ' ' else true) &&
        PSb (' ' :: (pyJoin (pystr ". ") (y :: ys) ++ ['.']))) = true
      rw [if_pos rfl]
      have hsp : PSb (' ' :: (pyJoin (pystr ". ") (y :: ys) ++ ['.'])) = true := by
        cases hj : pyJoin (pystr ". ") (y :: ys) ++ ['.'] with
        | nil => rfl
        | cons j J2 =>
          rw [hj] at hih
          exact PSb_cons_of_ne (by decide) hih
      simpa using hsp
    have heq : pyJoin (pystr ". ") (x :: y :: ys) ++ ['.'] =
        x ++ ('.' :: ' ' :: (pyJoin (pystr ". ") (y :: ys) ++ ['.'])) := by
      simp [pyJoin, pystr, List.append_assoc]
    rw [heq]
    exact PSb_periodfree_append x (hall x (by simp)) _ hz

/-!
## The double application of the 200-word limit in the narrative pipeline
-/

lemma pyRemoveAllAux_sublist (pat : List Char) :
    ∀ (s : List Char) (k : Nat), (pyRemoveAllAux pat s k).Sublist s
  | [], k => by cases k <;> simp [pyRemoveAllAux]
  | c :: rest, k + 1 => by
    simp only [pyRemoveAllAux]
    exact (pyRemoveAllAux_sublist pat rest k).cons c
  | c :: rest, 0 => by
    simp only [pyRemoveAllAux]
    split_ifs
    · exact (pyRemoveAllAux_sublist pat rest _).cons c
    · exact (pyRemoveAllAux_sublist pat rest 0).cons₂ c

lemma pyRemoveAll_sublist (pat s : List Char) : (pyRemoveAll pat s).Sublist s := by
  unfold pyRemoveAll
  split_ifs
  · exact List.Sublist.refl s
  · exact pyRemoveAllAux_sublist pat s 0

lemma wordCount_le_of_sublist {u v : List Char} (h : u.Sublist v) :
    wordCount u ≤ wordCount v := (wordCount_sublist_mono h).1

/-- Transfer of the invariant "at most 200 words or period-spaced" along an
infix. -/
lemma both_of_isInfix {u v : List Char} (hinf : u <:+: v)
    (h : wordCount v ≤ 200 ∨ PSb v = true) :
    wordCount u ≤ 200 ∨ PSb u = true := by
  rcases h with h | h
  · exact Or.inl (le_trans (wordCount_le_of_sublist hinf.sublist) h)
  · exact Or.inr (PSb_of_isInfix hinf h)

lemma pyJoin_append_singleton (sep : List Char) :
    ∀ (l : List (List Char)) (a : List Char), l ≠ [] →
      pyJoin sep (l ++ [a]) = pyJoin sep l ++ sep ++ a
  | [], _, h => absurd rfl h
  | [x], a, _ => by simp [pyJoin]
  | x :: y :: ys, a, _ => by
    have hih := pyJoin_append_singleton sep (y :: ys) a (by simp)
    show x ++ sep ++ pyJoin sep ((y :: ys) ++ [a]) = (x ++ sep ++ pyJoin sep (y :: ys)) ++ sep ++ a
    rw [hih]
    simp [List.append_assoc]

lemma take_words_good (x : List Char) (n : Nat) :
    ∀ w ∈ (pySplitWs x).take n, w ≠ [] ∧ ∀ c ∈ w, c.isWhitespace = false := by
  intro w hw
  obtain ⟨hne, hall⟩ := pySplitWs_good x w (List.take_subset n _ hw)
  exact ⟨hne, fun c hc => (hall c hc).2⟩

/-- A second word-limit pass on an input that is either already short or
period-spaced stays within 200 words. -/
lemma wordCount_wordLimit200_le (x : List Char)
    (h : wordCount x ≤ 200 ∨ PSb x = true) :
    wordCount (wordLimit200 x) ≤ 200 := by
  simp only [wordLimit200]
  split_ifs with h1 h2
  · -- truncation, with a sentence boundary in the truncated text
    have hPS : PSb x = true := by
      rcases h with h | h
      · exact absurd h1 (by simpa [wordCount] using Nat.not_lt.mpr h)
      · exact h
    have hlen : ((pySplitWs x).take 200).length = 200 :=
      List.length_take_of_le (le_of_lt h1)
    have hgood := take_words_good x 200
    have htr : wordCount (pyJoin (pystr " ") ((pySplitWs x).take 200)) = 200 := by
      rw [wordCount_join _ hgood, hlen]
    have hPStr : PSb (pyJoin (pystr " ") ((pySplitWs x).take 200)) = true :=
      PSb_join_words _ (fun w hw => PSb_words x hPS w (List.take_subset 200 _ hw))
    set trunc := pyJoin (pystr " ") ((pySplitWs x).take 200) with htrunc
    have hsent : pySplitOn (pystr ".") trunc = pySplitOnAux ['.'] trunc 0 := by
      unfold pySplitOn
      rw [if_neg (by decide)]
      rfl
    have hfull : pyJoin (pystr ". ") (pySplitOn (pystr ".") trunc) = respace trunc := by
      rw [hsent]
      exact pyJoin_split_respace trunc
    have hne : (pySplitOn (pystr ".") trunc).dropLast ≠ [] := by
      intro hcon
      have := List.length_dropLast (pySplitOn (pystr ".") trunc)
      rw [hcon] at this
      simp only [List.length_nil] at this
      omega
    have hsplitlist : (pySplitOn (pystr ".") trunc) =
        (pySplitOn (pystr ".") trunc).dropLast ++
          [(pySplitOn (pystr ".") trunc).getLast (by
            intro hcon
            rw [hcon] at h2
            simp at h2)] :=
      (List.dropLast_append_getLast _).symm
    have hsub : (pyJoin (pystr ". ") (pySplitOn (pystr ".") trunc).dropLast ++
        pystr ".").Sublist (pyJoin (pystr ". ") (pySplitOn (pystr ".") trunc)) := by
      conv_rhs => rw [hsplitlist, pyJoin_append_singleton (pystr ". ") _ _ hne]
      rw [List.append_assoc]
      refine List.Sublist.append_left ?_ _
      show (pystr ".").Sublist (pystr ". " ++ _)
      exact (List.cons_sublist_cons.mpr (List.nil_sublist _))
    calc wordCount (pyJoin (pystr ". ") (pySplitOn (pystr ".") trunc).dropLast ++ pystr ".")
        ≤ wordCount (pyJoin (pystr ". ") (pySplitOn (pystr ".") trunc)) :=
          wordCount_le_of_sublist hsub
      _ = wordCount (respace trunc) := by rw [hfull]
      _ = wordCount trunc := wordCount_respace hPStr
      _ = 200 := htr
  · -- truncation, no sentence boundary: the ellipsis extends the last word
    have hlen : ((pySplitWs x).take 200).length = 200 :=
      List.length_take_of_le (le_of_lt h1)
    have hws : (pySplitWs x).take 200 ≠ [] := by
      intro hcon
      rw [hcon] at hlen
      simp at hlen
    rw [wordCount_join_ext _ _ (take_words_good x 200) hws (by decide), hlen]
  · -- no truncation
    rw [wordCount_join _ (fun w hw => ⟨(pySplitWs_good x w hw).1,
      fun c hc => ((pySplitWs_good x w hw).2 c hc).2⟩)]
    exact Nat.not_lt.mp h1

/-- A first word-limit pass leaves either at most 200 words or a
period-spaced text. -/
lemma wordLimit200_post (s : List Char) :
    wordCount (wordLimit200 s) ≤ 200 ∨ PSb (wordLimit200 s) = true := by
  simp only [wordLimit200]
  split_ifs with h1 h2
  · right
    set trunc := pyJoin (pystr " ") ((pySplitWs s).take 200) with htrunc
    have hsent : pySplitOn (pystr ".") trunc = pySplitOnAux ['.'] trunc 0 := by
      unfold pySplitOn
      rw [if_neg (by decide)]
      rfl
    have helem : ∀ y ∈ (pySplitOn (pystr ".") trunc).dropLast, ('.' : Char) ∉ y := by
      intro y hy
      rw [hsent] at hy
      exact pySplitOnAux_single_elem '.' trunc 0 y (List.mem_of_mem_dropLast hy)
    exact PSb_join_periods _ helem
  · left
    have hlen : ((pySplitWs s).take 200).length = 200 :=
      List.length_take_of_le (le_of_lt h1)
    have hws : (pySplitWs s).take 200 ≠ [] := by
      intro hcon
      rw [hcon] at hlen
      simp at hlen
    rw [wordCount_join_ext _ _ (take_words_good s 200) hws (by decide), hlen]
  · left
    rw [wordCount_join _ (fun w hw => ⟨(pySplitWs_good s w hw).1,
      fun c hc => ((pySplitWs_good s w hw).2 c hc).2⟩)]
    exact Nat.not_lt.mp h1

lemma final_removals_both (z : List Char) (h : wordCount z ≤ 200 ∨ PSb z = true) :
    wordCount (pyStrip (pyRemoveAll (pystr "key insights:")
      (pyRemoveAll (pystr "Key insights:") z))) ≤ 200 ∨
    PSb (pyStrip (pyRemoveAll (pystr "key insights:")
      (pyRemoveAll (pystr "Key insights:") z))) = true := by
  rcases h with h | h
  · left
    calc wordCount (pyStrip (pyRemoveAll (pystr "key insights:")
          (pyRemoveAll (pystr "Key insights:") z)))
        ≤ wordCount (pyRemoveAll (pystr "key insights:")
            (pyRemoveAll (pystr "Key insights:") z)) :=
          wordCount_le_of_sublist (pyStrip_isInfix _).sublist
      _ ≤ wordCount (pyRemoveAll (pystr "Key insights:") z) :=
          wordCount_le_of_sublist (pyRemoveAll_sublist _ _)
      _ ≤ wordCount z := wordCount_le_of_sublist (pyRemoveAll_sublist _ _)
      _ ≤ 200 := h
  · right
    have h1 : PSb (pyRemoveAll (pystr "Key insights:") z) = true := by
      rw [show pystr "Key insights:" = 'K' :: pystr "ey insights:" from rfl]
      exact PSb_pyRemoveAll 'K' _ (by decide) z h
    have h2 : PSb (pyRemoveAll (pystr "key insights:")
        (pyRemoveAll (pystr "Key insights:") z)) = true := by
      rw [show pystr "key insights:" = 'k' :: pystr "ey insights:" from rfl]
      exact PSb_pyRemoveAll 'k' _ (by decide) _ h1
    exact PSb_of_isInfix (pyStrip_isInfix _) h2

/-- The final narrative cleanup keeps the word count at 200 or below for any
newline-free input that is short or period-spaced. -/
lemma kiCleanupD_wc (x : List Char) (hNL : ('\n' : Char) ∉ x)
    (h : wordCount x ≤ 200 ∨ PSb x = true) : wordCount (kiCleanupD x) ≤ 200 := by
  by_cases hx : x = []
  · rw [hx]
    decide
  · have hq := both_of_isInfix (pyStrip_isInfix x) h
    simp only [kiCleanupD]
    rw [if_neg hx, pySplitOn_newline_single hNL]
    have hfl : List.filterMap (fun l =>
        if pyStrip l ≠ [] ∧ ¬ pyStartsWith (pyLower (pyStrip l)) (pystr "date:")
        then some (pyStrip l) else none) [x] =
        (if pyStrip x ≠ [] ∧ ¬ pyStartsWith (pyLower (pyStrip x)) (pystr "date:")
         then [pyStrip x] else []) := by
      rw [List.filterMap_cons, List.filterMap_nil]
      split_ifs with hc <;> simp [hc]
    rw [hfl]
    split_ifs with hcond hin hlen <;>
      first
        | decide
        | (rw [show pyJoin (pystr " ") [pyStrip x] = pyStrip x from rfl]
           apply wordCount_wordLimit200_le
           first
             | exact final_removals_both _ (both_of_isInfix (pyStrip_isInfix _)
                 (both_of_isInfix (pySplitOn_getD_one_isInfix _ (pyStrip x)) hq))
             | exact final_removals_both _ (both_of_isInfix (pyStrip_isInfix _) hq))

/-- The first narrative cleanup either leaves the empty narrative or ends in
the word limiter. -/
lemma kiCleanupA_shape (x : List Char) :
    kiCleanupA x = [] ∨ ∃ y, kiCleanupA x = wordLimit200 y := by
  simp only [kiCleanupA]
  split_ifs with hx
  · exact Or.inl hx
  · exact Or.inr ⟨_, rfl⟩

lemma pyIn_single_iff (ch : Char) : ∀ (s : List Char), pyIn [ch] s = true ↔ ch ∈ s
  | [] => by simp [pyIn]
  | c :: rest => by
    have hih := pyIn_single_iff ch rest
    simp only [pyIn, Bool.or_eq_true, List.isPrefixOf, Bool.and_eq_true, beq_iff_eq,
      List.mem_cons, hih]
    constructor
    · rintro (⟨rfl, _⟩ | hr)
      · exact Or.inl rfl
      · exact Or.inr hr
    · rintro (rfl | hr)
      · exact Or.inl ⟨rfl, by simp [List.isPrefixOf]⟩
      · exact Or.inr hr

lemma pySplitOnAux_single_mem_length (ch : Char) :
    ∀ (s : List Char), ch ∈ s → 1 < (pySplitOnAux [ch] s 0).length
  | [], h => absurd h (by simp)
  | c :: rest, h => by
    by_cases hc : ch = c
    · subst hc
      have hp : [ch].isPrefixOf (ch :: rest) = true := by simp [List.isPrefixOf]
      simp only [pySplitOnAux, hp, if_true, List.length_cons, List.length_nil,
        List.length_singleton, Nat.zero_add, Nat.sub_self]
      have hpos := List.length_pos.mpr (pySplitOnAux_ne_nil [ch] rest 0)
      omega
    · have hr : ch ∈ rest := by
        rcases List.mem_cons.mp h with he | hr
        · exact absurd he hc
        · exact hr
      have hp : [ch].isPrefixOf (c :: rest) = false := by
        simp [List.isPrefixOf, hc]
      simp only [pySplitOnAux, hp, Bool.false_eq_true, if_false]
      cases hrec : pySplitOnAux [ch] rest 0 with
      | nil => exact absurd hrec (pySplitOnAux_ne_nil [ch] rest 0)
      | cons t ts =>
        have hih := pySplitOnAux_single_mem_length ch rest hr
        rw [hrec] at hih
        simpa using hih

lemma period_split_length_iff (s : List Char) :
    1 < (pySplitOn (pystr ".") s).length ↔ pyIn (pystr ".") s = true := by
  rw [show pystr "." = ['.'] from rfl, pyIn_single_iff '.' s]
  unfold pySplitOn
  rw [if_neg (by simp)]
  constructor
  · intro h
    by_contra hmem
    rw [pySplitOnAux_single_none '.' s hmem] at h
    simp at h
  · exact pySplitOnAux_single_mem_length '.' s

lemma kiCleanupD_cleanupA_le (x : List Char) :
    wordCount (kiCleanupD (kiCleanupA x)) ≤ 200 := by
  rcases kiCleanupA_shape x with hsh | ⟨y, hsh⟩
  · rw [hsh]
    decide
  · rw [hsh]
    exact kiCleanupD_wc _ (noNL_wordLimit200 y) (wordLimit200_post y)

/-- C8: every parsed record's narrative ("Key insights") has at most 200
words; moreover, whenever the word limit fires on a text of more than 200
words, the code drops the trailing incomplete sentence of the truncated text
and re-terminates with a period if the truncated text contains a sentence
boundary (a period), and appends an ellipsis otherwise. -/
theorem c8_narrative_word_limit (analysisText today source s : List Char)
    (h : (pySplitWs s).length > 200) :
    wordCount (parseAnalysisCore analysisText today source).keyInsights ≤ 200 ∧
    (pyIn (pystr ".") (pyJoin (pystr " ") ((pySplitWs s).take 200)) = true →
      wordLimit200 s =
        pyJoin (pystr ". ")
          (pySplitOn (pystr ".") (pyJoin (pystr " ") ((pySplitWs s).take 200))).dropLast
          ++ pystr ".") ∧
    (pyIn (pystr ".") (pyJoin (pystr " ") ((pySplitWs s).take 200)) = false →
      wordLimit200 s = pyJoin (pystr " ") ((pySplitWs s).take 200) ++ pystr "...") := by
  refine ⟨?_, ?_, ?_⟩
  · simp only [parseAnalysisCore, riskBlock_ki]
    exact kiCleanupD_cleanupA_le _
  · intro hin
    simp only [wordLimit200]
    rw [if_pos h, if_pos ((period_split_length_iff _).mpr hin)]
  · intro hnin
    have hneg : ¬ ((pySplitOn (pystr ".")
        (pyJoin (pystr " ") ((pySplitWs s).take 200))).length > 1) := by
      rw [gt_iff_lt, period_split_length_iff, hnin]
      simp
    simp only [wordLimit200]
    rw [if_pos h, if_neg hneg]

set_option maxRecDepth 16384 in
/-- C8 witness: the theorem applied at a concrete 201-word text. -/
theorem c8_narrative_word_limit_witness :
    (pySplitWs c8LongText).length > 200 ∧
    (wordCount (parseAnalysisCore c8LongText c8LongText c8LongText).keyInsights ≤ 200 ∧
    (pyIn (pystr ".") (pyJoin (pystr " ") ((pySplitWs c8LongText).take 200)) = true →
      wordLimit200 c8LongText =
        pyJoin (pystr ". ")
          (pySplitOn (pystr ".")
            (pyJoin (pystr " ") ((pySplitWs c8LongText).take 200))).dropLast
          ++ pystr ".") ∧
    (pyIn (pystr ".") (pyJoin (pystr " ") ((pySplitWs c8LongText).take 200)) = false →
      wordLimit200 c8LongText =
        pyJoin (pystr " ") ((pySplitWs c8LongText).take 200) ++ pystr "...")) :=
  ⟨by decide, c8_narrative_word_limit c8LongText c8LongText c8LongText c8LongText (by decide)⟩

/-- C10 witness: the empty run issues no model call. -/
theorem c10_insufficient_data_witness :
    ((handedBatch []).headlines.length + (handedBatch []).insights.length +
      (handedBatch []).signals.length < 2) ∧
    analysisTextFor (handedBatch []) (ModelOutcome.ok []) =
      (false, pystr "Unable to generate analysis due to insufficient data. Need at least 2 data points from sources.") :=
  ⟨by decide, c10_insufficient_data [] (ModelOutcome.ok []) (by decide)⟩

end InfMarket
